import Mathlib

/-!
# CS452 HW4: the doubly-ended queue of `deq.c` and the bounded queue of `mtq.c`

A shallow embedding of the linked deque of `src/hw4/deq.c` over an explicit
node store and of the monitor of `src/hw4/mtq.c` around it, followed by the
properties of their operations.

* Node pointers are `Option Nat`: `none` is the C null pointer, `some a` the
  address of the cell `a` of the node store.
* An operation yields `none` where the C program has no defined result
  (it follows a null or released pointer, or its loop never ends).
* `int` values (`len`, `max`, the index of `ith`) are mathematical integers.
* A call of an `mtq_` function is the part of it that runs while the lock is
  held: it waits when its guard holds, and otherwise runs the deque function
  and signals. An execution is the order in which calls complete.
-/

namespace Deq

/-- The two ends of a deque: `typedef enum {Head, Tail, Ends} End` (deq.c:9). -/
inductive End where
  | Head
  | Tail
  deriving DecidableEq, Repr

/-- The expression `(e == Head) ? Tail : Head` of deq.c. -/
def End.opp : End → End
  | End.Head => End.Tail
  | End.Tail => End.Head

/-- Modelled from the spec: the payload type `Data` of the absent `deq.h`, an
opaque reference compared by identity; `0` is the zero reference. -/
abbrev Data := Nat

/-- A node pointer; `none` is `NULL`. -/
abbrev Ptr := Option Nat

/-- The `struct Node` of deq.c:12-15: `np[Head]`, `np[Tail]` and `data`. -/
structure Node where
  npHead : Ptr
  npTail : Ptr
  data : Data
  deriving DecidableEq, Repr

/-- Read of `n->np[e]`. -/
def Node.np (n : Node) : End → Ptr
  | End.Head => n.npHead
  | End.Tail => n.npTail

/-- Write of `n->np[e] = p`. -/
def Node.setNp (n : Node) (e : End) (p : Ptr) : Node :=
  match e with
  | End.Head => { n with npHead := p }
  | End.Tail => { n with npTail := p }

/-- The representation struct of deq.c:18-21: `ht[Head]`, `ht[Tail]`, `len`. -/
structure Rep where
  htHead : Ptr
  htTail : Ptr
  len : Int
  deriving DecidableEq, Repr

/-- Read of `r->ht[e]`. -/
def Rep.ht (r : Rep) : End → Ptr
  | End.Head => r.htHead
  | End.Tail => r.htTail

/-- Write of `r->ht[e] = p`. -/
def Rep.setHt (r : Rep) (e : End) (p : Ptr) : Rep :=
  match e with
  | End.Head => { r with htHead := p }
  | End.Tail => { r with htTail := p }

/-- The memory a deque lives in: the node cells by address (`none` is a cell
that is not allocated, or was released by `free`), and the `Rep` object the
handle points to (`none` is the zero handle). -/
structure State where
  nodes : List (Option Node)
  rep : Option Rep
  deriving DecidableEq, Repr

/-- The call sites of the `ERROR` macro in deq.c, by their message. -/
inductive Err where
  /-- deq.c:25, zero pointer. -/
  | zeroPointer
  /-- deq.c:44, attempting to add a node to a non-existent deq. -/
  | nonExistentDeq
  /-- deq.c:53, failed memory allocation for new node. -/
  | allocFailed
  /-- deq.c:96, invalid index. -/
  | invalidIndex
  /-- deq.c:116 and deq.c:146, node is null. -/
  | nodeNull
  /-- deq.c:137, deq is empty, cannot get from empty list. -/
  | emptyGet
  deriving DecidableEq, Repr

/-- What a call leaves behind: the memory after it, the value returned, and
the errors it reported.

Modelled from the spec: the `ERROR` macro of the absent `error.h` reports the
error and the function goes on to its `return` (spec section 7: the Deque
Core reports and returns a sentinel). -/
structure Outcome (α : Type) where
  st : State
  ret : α
  errs : List Err
  deriving DecidableEq, Repr

/-- Dereference of a node pointer: the cell it points to, `none` when the
pointer is null or the cell is not allocated. -/
def load (nodes : List (Option Node)) (p : Ptr) : Option Node :=
  match p with
  | none => none
  | some a => (nodes[a]?).join

/-- Assignment through a node pointer. -/
def store (nodes : List (Option Node)) (a : Nat) (n : Node) : List (Option Node) :=
  nodes.set a (some n)

/-- Release of a node: `free(n)`. -/
def free (nodes : List (Option Node)) (a : Nat) : List (Option Node) :=
  nodes.set a none

/-- Allocation of a node: `malloc(sizeof(*newNode))`. Memory is unbounded in
this model: the next unused address is handed out, so the null result that
deq.c:52 tests for does not arise. -/
def malloc (nodes : List (Option Node)) : Ptr :=
  some nodes.length

/-- The function `put` of deq.c:41-80. -/
def put (s : State) (e : End) (d : Data) : Option (Outcome Unit) :=
  match s.rep with
  | none => some ⟨s, (), [Err.nonExistentDeq]⟩
  | some r =>
    match malloc s.nodes with
    | none => some ⟨s, (), [Err.allocFailed]⟩
    | some a =>
      let newNode : Node := ⟨none, none, d⟩
      let nodes := s.nodes ++ [some newNode]
      if r.len = 0 then
        let r := (r.setHt End.Head (some a)).setHt End.Tail (some a)
        some ⟨⟨nodes, some { r with len := r.len + 1 }⟩, (), []⟩
      else
        let previousEndNode := r.ht e
        let newNode := newNode.setNp e.opp previousEndNode
        let nodes := store nodes a newNode
        match previousEndNode, load nodes previousEndNode with
        | some b, some pn =>
          let nodes := store nodes b (pn.setNp e (some a))
          let r := r.setHt e (some a)
          some ⟨⟨nodes, some { r with len := r.len + 1 }⟩, (), []⟩
        | _, _ => none

/-- The `for` loop of deq.c:104-112: `k` steps of
`currentNode = currentNode->np[(e == Head) ? Tail : Head]`. -/
def ithLoop (nodes : List (Option Node)) (e : End) : Nat → Ptr → Option Ptr
  | 0, cur => some cur
  | k + 1, cur =>
    match load nodes cur with
    | none => none
    | some n => ithLoop nodes e k (n.np e.opp)

/-- The function `ith` of deq.c:93-121. -/
def ith (s : State) (e : End) (i : Int) : Option (Outcome Data) :=
  match s.rep with
  | none => none
  | some r =>
    if i < 0 ∨ i ≥ r.len then some ⟨s, 0, [Err.invalidIndex]⟩
    else
      match ithLoop s.nodes e i.toNat (r.ht e) with
      | none => none
      | some none => some ⟨s, 0, [Err.nodeNull]⟩
      | some (some a) =>
        match load s.nodes (some a) with
        | none => none
        | some n => some ⟨s, n.data, []⟩

/-- The function `get` of deq.c:134-171. -/
def get (s : State) (e : End) : Option (Outcome Data) :=
  match s.rep with
  | none => none
  | some r =>
    if r.len = 0 then some ⟨s, 0, [Err.emptyGet]⟩
    else
      match (if e = End.Head then r.ht End.Head else r.ht End.Tail) with
      | none => some ⟨s, 0, [Err.nodeNull]⟩
      | some c =>
        match load s.nodes (some c) with
        | none => none
        | some currentNode =>
          let d := currentNode.data
          let r := r.setHt e (currentNode.np e.opp)
          match r.ht e with
          | none =>
            let r := r.setHt e.opp none
            some ⟨⟨free s.nodes c, some { r with len := r.len - 1 }⟩, d, []⟩
          | some b =>
            match load s.nodes (some b) with
            | none => none
            | some nb =>
              let nodes := store s.nodes b (nb.setNp e none)
              some ⟨⟨free nodes c, some { r with len := r.len - 1 }⟩, d, []⟩

/-- The two relinking statements of deq.c:205-220, one for each side `x` of
the node that leaves: with `x = Head`, `a = prevNode`, `b = nextNode` it is
`if (prevNode) prevNode->np[Tail] = nextNode; else r->ht[Head] = nextNode;`
and with `x = Tail`, `a = nextNode`, `b = prevNode` it is
`if (nextNode) nextNode->np[Head] = prevNode; else r->ht[Tail] = prevNode;`. -/
def relink (nodes : List (Option Node)) (r : Rep) (x : End) (a b : Ptr) :
    Option (List (Option Node) × Rep) :=
  match a with
  | some p =>
    match load nodes (some p) with
    | none => none
    | some pn => some (store nodes p (pn.setNp x.opp b), r)
  | none => some (nodes, r.setHt x b)

/-- The body of the `if (currentNode->data == d)` of deq.c:198-230: the node
`cn` at address `c` is spliced out of the list, released, and its data
returned. -/
def remUnlink (nodes : List (Option Node)) (r : Rep) (c : Nat) (cn : Node) :
    Option (Outcome Data) :=
  let prevNode := cn.np End.Head
  let nextNode := cn.np End.Tail
  match relink nodes r End.Head prevNode nextNode with
  | none => none
  | some (nodes, r) =>
    match relink nodes r End.Tail nextNode prevNode with
    | none => none
    | some (nodes, r) =>
      match load nodes (some c) with
      | none => none
      | some cn =>
        let removedData := cn.data
        some ⟨⟨free nodes c, some { r with len := r.len - 1 }⟩, removedData, []⟩

/-- The `while (currentNode)` loop of deq.c:195-234, bounded by `fuel`
iterations; `none` when the fuel runs out. -/
def remLoop (s : State) (r : Rep) (e : End) (d : Data) : Nat → Ptr → Option (Outcome Data)
  | _, none => some ⟨s, 0, []⟩
  | 0, some _ => none
  | fuel + 1, some c =>
    match load s.nodes (some c) with
    | none => none
    | some cn =>
      if cn.data = d then remUnlink s.nodes r c cn
      else remLoop s r e d fuel (if e = End.Head then cn.np End.Tail else cn.np End.Head)

/-- The function `rem` of deq.c:184-238. The loop visits allocated cells
only, so a walk of more steps than there are cells has come back to a cell
it already left without a match, and never ends: the fuel
`nodes.length + 1` is enough for every walk that ends. -/
def rem (s : State) (e : End) (d : Data) : Option (Outcome Data) :=
  match s.rep with
  | none => some ⟨s, 0, []⟩
  | some r =>
    if r.len = 0 then some ⟨s, 0, []⟩
    else
      remLoop s r e d (s.nodes.length + 1)
        (if e = End.Head then r.ht End.Head else r.ht End.Tail)

/-- The function `deq_new` of deq.c:241-248, in a memory with no node. -/
def deq_new : State :=
  ⟨[], some ⟨none, none, 0⟩⟩

/-- The function `deq_len` of deq.c:251, `none` on the zero handle. -/
def deq_len (s : State) : Option Int :=
  s.rep.map Rep.len

/-- The head-to-tail walk `for (n = ht[Head]; n; n = n->np[Tail])` of
deq.c:279 and deq.c:298, collecting the payload of every node it visits;
`none` when the fuel runs out or a link cannot be followed. -/
def walkLoop (nodes : List (Option Node)) : Nat → Ptr → Option (List Data)
  | _, none => some []
  | 0, some _ => none
  | fuel + 1, some a =>
    match load nodes (some a) with
    | none => none
    | some n => (walkLoop nodes fuel (n.np End.Tail)).map (fun l => n.data :: l)

/-- The payloads met by the head-to-tail walk of a deque. As for `rem`, a
walk that ends takes at most as many steps as there are cells. -/
def contents (s : State) : Option (List Data) :=
  match s.rep with
  | none => none
  | some r => walkLoop s.nodes (s.nodes.length + 1) (r.ht End.Head)

/-- A call of `put` or of `get` at an end, as made by a client of the deque. -/
inductive Op where
  | put (e : End) (d : Data)
  | get (e : End)
  deriving DecidableEq, Repr

/-- The calls of a list made one after the other on the memory `s`: the final
memory, the values the `get`s returned in order, and the errors reported. -/
def run : List Op → State → Option (State × List Data × List Err)
  | [], s => some (s, [], [])
  | Op.put e d :: ops, s =>
    match put s e d with
    | none => none
    | some o =>
      match run ops o.st with
      | none => none
      | some (s2, outs, errs) => some (s2, outs, o.errs ++ errs)
  | Op.get e :: ops, s =>
    match get s e with
    | none => none
    | some o =>
      match run ops o.st with
      | none => none
      | some (s2, outs, errs) => some (s2, o.ret :: outs, o.errs ++ errs)

/-- No `get` of the list is called while `deq_len` is 0. -/
def noEmptyGet : List Op → State → Bool
  | [], _ => true
  | Op.put e d :: ops, s =>
    match put s e d with
    | none => true
    | some o => noEmptyGet ops o.st
  | Op.get e :: ops, s =>
    decide (deq_len s ≠ some 0) &&
      match get s e with
      | none => true
      | some o => noEmptyGet ops o.st

/-- Number of `put` calls in a list. -/
def countPuts : List Op → Nat
  | [] => 0
  | Op.put _ _ :: ops => countPuts ops + 1
  | Op.get _ :: ops => countPuts ops

/-- Number of `get` calls in a list. -/
def countGets : List Op → Nat
  | [] => 0
  | Op.put _ _ :: ops => countGets ops
  | Op.get _ :: ops => countGets ops + 1

/-- A memory after the calls `put(Tail, 10)`, `put(Tail, 20)`, `put(Tail, 10)`
on a new deque: three nodes, head-to-tail contents 10, 20, 10. -/
def sample : State :=
  ⟨[some ⟨none, some 1, 10⟩, some ⟨some 0, some 2, 20⟩, some ⟨some 1, none, 10⟩],
    some ⟨some 0, some 2, 3⟩⟩

/-! ## The abstraction: a deque as a list of cells -/

/-- The cells of a deque in walking order: address and payload of each node. -/
abbrev Cells := List (Nat × Data)

/-- Address of the first cell, `n` when there is none. -/
def firstOr : Cells → Ptr → Ptr
  | [], n => n
  | c :: _, _ => some c.1

/-- Address of the last cell, `p` when there is none. -/
def lastOr : Cells → Ptr → Ptr
  | [], p => p
  | c :: cs, _ => lastOr cs (some c.1)

/-- The cells `cs` are a doubly linked run in direction `d`: every cell is
allocated and holds its payload, its `np[d]` is the next cell of the run (`n`
after the last) and its other link is the cell before it (`p` before the
first). -/
def Linked (nodes : List (Option Node)) (d : End) : Ptr → Cells → Ptr → Prop
  | _, [], _ => True
  | p, c :: cs, n =>
    (∃ nd, load nodes (some c.1) = some nd ∧ nd.np d.opp = p ∧ nd.np d = firstOr cs n ∧
      nd.data = c.2) ∧ Linked nodes d (some c.1) cs n

/-- The memory `s` holds a well-formed deque whose cells, walked from end `e`
to the other end, are `cs`: the handle is not zero, `ht[e]` is the first cell
and the other `ht` the last (both null when there is none), `len` is the
number of cells, no cell occurs twice, and the cells are doubly linked with
null links at both ends. -/
def Shape (s : State) (e : End) (cs : Cells) : Prop :=
  ∃ r, s.rep = some r ∧ r.ht e = firstOr cs none ∧ r.ht e.opp = lastOr cs none ∧
    r.len = cs.length ∧ (cs.map Prod.fst).Nodup ∧ Linked s.nodes e.opp none cs none

/-- The memory `s` holds a well-formed deque whose payloads, listed from end
`e` to the other end, are `xs`. With `e = Head` these are the head-to-tail
contents. -/
def Models (s : State) (e : End) (xs : List Data) : Prop :=
  ∃ cs, Shape s e cs ∧ cs.map Prod.snd = xs

/-! ## The exported functions of deq.c -/

/-- The function `rep` of deq.c:24-27: the error it reports on the zero handle
before it hands the handle on. -/
def repErrs (s : State) : List Err :=
  match s.rep with
  | none => [Err.zeroPointer]
  | some _ => []

/-- A call made through `rep(q)`: the report of `rep` comes first. -/
def viaRep {α : Type} (s : State) (o : Option (Outcome α)) : Option (Outcome α) :=
  o.map (fun x => { x with errs := repErrs s ++ x.errs })

/-- The function `deq_head_put` of deq.c:254. -/
def deq_head_put (s : State) (d : Data) : Option (Outcome Unit) :=
  viaRep s (put s End.Head d)

/-- The function `deq_head_get` of deq.c:257. -/
def deq_head_get (s : State) : Option (Outcome Data) :=
  viaRep s (get s End.Head)

/-- The function `deq_head_ith` of deq.c:260. -/
def deq_head_ith (s : State) (i : Int) : Option (Outcome Data) :=
  viaRep s (ith s End.Head i)

/-- The function `deq_head_rem` of deq.c:263. -/
def deq_head_rem (s : State) (d : Data) : Option (Outcome Data) :=
  viaRep s (rem s End.Head d)

/-- The function `deq_tail_put` of deq.c:266. -/
def deq_tail_put (s : State) (d : Data) : Option (Outcome Unit) :=
  viaRep s (put s End.Tail d)

/-- The function `deq_tail_get` of deq.c:269. -/
def deq_tail_get (s : State) : Option (Outcome Data) :=
  viaRep s (get s End.Tail)

/-- The function `deq_tail_ith` of deq.c:272. -/
def deq_tail_ith (s : State) (i : Int) : Option (Outcome Data) :=
  viaRep s (ith s End.Tail i)

/-- The function `deq_tail_rem` of deq.c:275. -/
def deq_tail_rem (s : State) (d : Data) : Option (Outcome Data) :=
  viaRep s (rem s End.Tail d)

/-- What a traversal does to the world outside the node store, in order: a
call `f(n->data)` of the function handed in, the release of the node at an
address, the release of the `Rep` object. -/
inductive Event where
  | call (d : Data)
  | release (a : Nat)
  | releaseRep
  deriving DecidableEq, Repr

/-- The loop of `deq_map`, deq.c:279-280: one call `f(n->data)` per node,
walking tail-ward. The function `f` receives the payload only and is taken
not to touch the nodes. -/
def mapLoop (nodes : List (Option Node)) : Nat → Ptr → Option (List Event)
  | _, none => some []
  | 0, some _ => none
  | fuel + 1, some a =>
    match load nodes (some a) with
    | none => none
    | some n => (mapLoop nodes fuel (n.np End.Tail)).map (fun l => Event.call n.data :: l)

/-- The function `deq_map` of deq.c:278-281: the memory after it and the
calls of `f` it made. -/
def deq_map (s : State) : Option (Outcome (List Event)) :=
  match s.rep with
  | none => none
  | some r =>
    match mapLoop s.nodes (s.nodes.length + 1) (r.ht End.Head) with
    | none => none
    | some evs => some ⟨s, evs, []⟩

/-- The loop of `deq_del`, deq.c:287-291: `next = curr->np[Tail]; free(curr);
curr = next`. -/
def delLoop : List (Option Node) → Nat → Ptr → Option (List (Option Node) × List Event)
  | nodes, _, none => some (nodes, [])
  | _, 0, some _ => none
  | nodes, fuel + 1, some a =>
    match load nodes (some a) with
    | none => none
    | some n =>
      match delLoop (free nodes a) fuel (n.np End.Tail) with
      | none => none
      | some (nodes2, evs) => some (nodes2, Event.release a :: evs)

/-- The function `deq_del` of deq.c:284-293; `f` tells whether a function was
handed in. The handle is the zero handle afterwards. -/
def deq_del (s : State) (f : Bool) : Option (Outcome (List Event)) :=
  match (if f then deq_map s else some ⟨s, [], []⟩) with
  | none => none
  | some o =>
    match o.st.rep with
    | none => none
    | some r =>
      match delLoop o.st.nodes (o.st.nodes.length + 1) (r.ht End.Head) with
      | none => none
      | some (nodes2, evs) =>
        some ⟨⟨nodes2, none⟩, o.ret ++ evs ++ [Event.releaseRep], o.errs⟩

/-- Modelled from the spec: the type `Str` of the absent `deq.h`, the text of a
C string. -/
abbrev Str := String

/-- The expression `f ? f(n->data) : n->data` of deq.c:299: the rendering of a
payload is what `f` makes of it, or, when no `f` was handed in, the payload
read as a C string, which is the text `text` holds for it. -/
def render (f : Option (Data → Str)) (text : Data → Str) (d : Data) : Str :=
  match f with
  | some g => g d
  | none => text d

/-- The loop of `deq_str`, deq.c:298-303: the new text is `s`, then a space if
`*s` is not the end of `s`, then the rendering `d`. -/
def strLoop (nodes : List (Option Node)) (f : Option (Data → Str)) (text : Data → Str) :
    Nat → Ptr → Str → Option Str
  | _, none, s => some s
  | 0, some _, _ => none
  | fuel + 1, some a, s =>
    match load nodes (some a) with
    | none => none
    | some n =>
      let d := render f text n.data
      let t := s ++ (if s = ("") then ("") else (" ")) ++ d
      strLoop nodes f text fuel (n.np End.Tail) t

/-- The function `deq_str` of deq.c:296-305. -/
def deq_str (s : State) (f : Option (Data → Str)) (text : Data → Str) : Option Str :=
  match s.rep with
  | none => none
  | some r => strLoop s.nodes f text (s.nodes.length + 1) (r.ht End.Head) ("")

/-- The renderings joined with one space between consecutive ones, as the
spec words `toString`. -/
def spaceJoin : List Str → Str
  | [] => ("")
  | [x] => x
  | x :: y :: l => x ++ (" ") ++ spaceJoin (y :: l)

/-- A memory holding the single payload 0. -/
def zeroDeq : State :=
  ⟨[some ⟨none, none, 0⟩], some ⟨some 0, some 0, 1⟩⟩

/-! ## The bounded queue of mtq.c -/

/-- The struct behind `Mrep`, mtq.c:9-16: the bound `max` and the deque `q`.
The lock and the two condition variables carry no data of their own: a call
below is the part of an `mtq_` function that runs while the lock is held. -/
structure Mrep where
  max : Int
  q : State
  deriving DecidableEq, Repr

/-- The two condition variables of mtq.c:13-14. -/
inductive Signal where
  | consumed
  | produced
  deriving DecidableEq, Repr

/-- How a call of an `mtq_` function goes on once it holds the lock: its
`while` guard holds and it waits on a condition (it starts over when woken),
or the guard is clear and it runs the deque function, signals, unlocks and
returns. -/
inductive Call (α : Type) where
  | waits (c : Signal)
  | returns (m : Mrep) (ret : α) (signals : List Signal) (errs : List Err)
  deriving DecidableEq, Repr

/-- The function `mtq_new` of mtq.c:24-51; the initialisation of the lock and
of the condition variables succeeds. -/
def mtq_new (mtqMax : Int) : Mrep :=
  ⟨mtqMax, deq_new⟩

/-- The function `mtq_head_put` of mtq.c:61-74. -/
def mtq_head_put (m : Mrep) (d : Data) : Option (Call Unit) :=
  match deq_len m.q with
  | none => none
  | some n =>
    if n ≥ m.max ∧ m.max > 0 then some (Call.waits Signal.consumed)
    else
      match deq_head_put m.q d with
      | none => none
      | some o => some (Call.returns { m with q := o.st } o.ret [Signal.produced] o.errs)

/-- The function `mtq_tail_put` of mtq.c:84-97. -/
def mtq_tail_put (m : Mrep) (d : Data) : Option (Call Unit) :=
  match deq_len m.q with
  | none => none
  | some n =>
    if n ≥ m.max ∧ m.max > 0 then some (Call.waits Signal.consumed)
    else
      match deq_tail_put m.q d with
      | none => none
      | some o => some (Call.returns { m with q := o.st } o.ret [Signal.produced] o.errs)

/-- The function `mtq_head_get` of mtq.c:107-123. -/
def mtq_head_get (m : Mrep) : Option (Call Data) :=
  match deq_len m.q with
  | none => none
  | some n =>
    if n = 0 then some (Call.waits Signal.produced)
    else
      match deq_head_get m.q with
      | none => none
      | some o => some (Call.returns { m with q := o.st } o.ret [Signal.consumed] o.errs)

/-- The function `mtq_tail_get` of mtq.c:133-149. -/
def mtq_tail_get (m : Mrep) : Option (Call Data) :=
  match deq_len m.q with
  | none => none
  | some n =>
    if n = 0 then some (Call.waits Signal.produced)
    else
      match deq_tail_get m.q with
      | none => none
      | some o => some (Call.returns { m with q := o.st } o.ret [Signal.consumed] o.errs)

/-- The function `mtq_head_ith` of mtq.c:160-176. -/
def mtq_head_ith (m : Mrep) (i : Int) : Option (Call Data) :=
  match deq_len m.q with
  | none => none
  | some n =>
    if n - 1 < i then some (Call.waits Signal.produced)
    else
      match deq_head_ith m.q i with
      | none => none
      | some o => some (Call.returns { m with q := o.st } o.ret [Signal.consumed] o.errs)

/-- The function `mtq_tail_ith` of mtq.c:187-203. -/
def mtq_tail_ith (m : Mrep) (i : Int) : Option (Call Data) :=
  match deq_len m.q with
  | none => none
  | some n =>
    if n - 1 < i then some (Call.waits Signal.produced)
    else
      match deq_tail_ith m.q i with
      | none => none
      | some o => some (Call.returns { m with q := o.st } o.ret [Signal.consumed] o.errs)

/-- The function `mtq_head_rem` of mtq.c:214-230. -/
def mtq_head_rem (m : Mrep) (d : Data) : Option (Call Data) :=
  match deq_len m.q with
  | none => none
  | some n =>
    if n = 0 then some (Call.waits Signal.produced)
    else
      match deq_head_rem m.q d with
      | none => none
      | some o => some (Call.returns { m with q := o.st } o.ret [Signal.consumed] o.errs)

/-- The function `mtq_tail_rem` of mtq.c:241-257. -/
def mtq_tail_rem (m : Mrep) (d : Data) : Option (Call Data) :=
  match deq_len m.q with
  | none => none
  | some n =>
    if n = 0 then some (Call.waits Signal.produced)
    else
      match deq_tail_rem m.q d with
      | none => none
      | some o => some (Call.returns { m with q := o.st } o.ret [Signal.consumed] o.errs)

/-- A call of one of the eight queue functions, as made by a thread. -/
inductive MOp where
  | put (e : End) (d : Data)
  | get (e : End)
  | ith (e : End) (i : Int)
  | rem (e : End) (d : Data)
  deriving DecidableEq, Repr

/-- The value a call hands back, none for the `void` functions. -/
def Call.withValue {α : Type} : Call α → Call (Option α)
  | Call.waits c => Call.waits c
  | Call.returns m ret sigs errs => Call.returns m (Option.some ret) sigs errs

/-- The value of a `void` call. -/
def Call.void : Call Unit → Call (Option Data)
  | Call.waits c => Call.waits c
  | Call.returns m _ sigs errs => Call.returns m none sigs errs

/-- The put function for an end: `mtq_head_put` or `mtq_tail_put`. -/
def mtq_put (m : Mrep) (e : End) (d : Data) : Option (Call Unit) :=
  match e with
  | End.Head => mtq_head_put m d
  | End.Tail => mtq_tail_put m d

/-- The get function for an end: `mtq_head_get` or `mtq_tail_get`. -/
def mtq_get (m : Mrep) (e : End) : Option (Call Data) :=
  match e with
  | End.Head => mtq_head_get m
  | End.Tail => mtq_tail_get m

/-- The ith function for an end: `mtq_head_ith` or `mtq_tail_ith`. -/
def mtq_ith (m : Mrep) (e : End) (i : Int) : Option (Call Data) :=
  match e with
  | End.Head => mtq_head_ith m i
  | End.Tail => mtq_tail_ith m i

/-- The rem function for an end: `mtq_head_rem` or `mtq_tail_rem`. -/
def mtq_rem (m : Mrep) (e : End) (d : Data) : Option (Call Data) :=
  match e with
  | End.Head => mtq_head_rem m d
  | End.Tail => mtq_tail_rem m d

/-- The queue function a call names, applied to the queue `m`. -/
def mtq_call (m : Mrep) : MOp → Option (Call (Option Data))
  | MOp.put e d => (mtq_put m e d).map Call.void
  | MOp.get e => (mtq_get m e).map Call.withValue
  | MOp.ith e i => (mtq_ith m e i).map Call.withValue
  | MOp.rem e d => (mtq_rem m e d).map Call.withValue

/-- The payload a call inserts, if it is a put. -/
def MOp.putData : MOp → Option Data
  | MOp.put _ d => some d
  | _ => none

/-- Whether a call hands back a value (all but the puts). -/
def MOp.hasValue : MOp → Bool
  | MOp.put _ _ => false
  | _ => true

/-- Whether a call is a put or a get. -/
def MOp.isPutGet : MOp → Bool
  | MOp.put _ _ => true
  | MOp.get _ => true
  | _ => false

/-- Whether a call leaves the elements in place: a put (which completes only by
adding one) or an ith. -/
def MOp.removesNothing : MOp → Bool
  | MOp.put _ _ => true
  | MOp.ith _ _ => true
  | _ => false

/-- The calls of an execution in which every producer of main.c (a put at the
tail, main.c:34) is followed at once by a consumer (a get at the head,
main.c:51). -/
def alternate : List Data → List MOp
  | [] => []
  | d :: ds => MOp.put End.Tail d :: MOp.get End.Head :: alternate ds

/-- The call waits on a condition. -/
def Blocks {α : Type} (c : Option (Call α)) : Prop :=
  ∃ x, c = some (Call.waits x)

/-- An execution of the queue: the calls of the list complete one after the
other, in the order in which they pass the lock with their guard clear. The
result is the final queue and the values handed back, in order; there is
none when a call of the list meets its guard at its turn (it waits, so the
list is not the order of an execution) or has no defined result. -/
def mexec : List MOp → Mrep → Option (Mrep × List Data)
  | [], m => some (m, [])
  | op :: ops, m =>
    match mtq_call m op with
    | some (Call.returns m2 ret _ _) =>
      match mexec ops m2 with
      | none => none
      | some (m3, outs) => some (m3, ret.toList ++ outs)
    | _ => none

/-! ## The bounded queue in the words of the spec -/

/-- The Deque Core operation a queue call performs, section 4.2 of the spec:
the deque function of the same name at the same end, with the value it hands
back (none for a put). -/
def coreOp (s : State) : MOp → Option (Outcome (Option Data))
  | MOp.put e d => (put s e d).map (fun o => ⟨o.st, none, o.errs⟩)
  | MOp.get e => (get s e).map (fun o => ⟨o.st, some o.ret, o.errs⟩)
  | MOp.ith e i => (ith s e i).map (fun o => ⟨o.st, some o.ret, o.errs⟩)
  | MOp.rem e d => (rem s e d).map (fun o => ⟨o.st, some o.ret, o.errs⟩)

/-- The guard of a queue call, section 4.2 of the spec: `max > 0 AND
length >= max` for a put, `length == 0` for a get and for a removal by
value, `length - 1 < i` for an ith; none on the zero handle, where the
length cannot be read. -/
def guardOf (m : Mrep) (op : MOp) : Option Bool :=
  (deq_len m.q).map (fun n =>
    match op with
    | MOp.put _ _ => decide (m.max > 0 ∧ n ≥ m.max)
    | MOp.get _ => decide (n = 0)
    | MOp.ith _ i => decide (n - 1 < i)
    | MOp.rem _ _ => decide (n = 0))

/-- The condition a queue call waits on while its guard holds, section 4.2 of
the spec: space available (`consumed`) for a put, data available
(`produced`) for the others. -/
def waitOf : MOp → Signal
  | MOp.put _ _ => Signal.consumed
  | _ => Signal.produced

/-- The condition a completed queue call signals, section 4.2 of the spec:
data available (`produced`) after a put, space available (`consumed`) after
a get, an ith and a removal by value. -/
def signalOf : MOp → Signal
  | MOp.put _ _ => Signal.produced
  | _ => Signal.consumed

/-! ## Well-formedness in the words of the spec -/

/-- The addresses of the nodes met by a walk from `start` along `np[d]` until
the null pointer; `none` when a link cannot be followed or the fuel runs
out. -/
def walkAddrs (nodes : List (Option Node)) (d : End) : Nat → Ptr → Option (List Nat)
  | _, none => some []
  | 0, some _ => none
  | fuel + 1, some a =>
    match load nodes (some a) with
    | none => none
    | some n => (walkAddrs nodes d fuel (n.np d)).map (fun l => a :: l)

/-- The invariants of a Deque in section 3 of the spec, on the memory `s`:
the handle is not zero; the walk from the head along the tail-ward links ends
and `len` is the number of nodes it meets; head and tail are both absent
exactly when `len` is 0; the head node has no head-ward neighbour and the
tail node no tail-ward one; for nodes `a`, `b` of the deque the tail-ward link
of `a` is `b` exactly when the head-ward link of `b` is `a`; and the walk
from the tail along the head-ward links meets the same nodes in reverse
order. -/
def WellFormed (s : State) : Prop :=
  ∃ r fwd, s.rep = some r ∧
    walkAddrs s.nodes End.Tail (s.nodes.length + 1) (r.ht End.Head) = some fwd ∧
    r.len = fwd.length ∧
    ((r.ht End.Head = none ∧ r.ht End.Tail = none) ↔ r.len = 0) ∧
    (∀ a n, r.ht End.Head = some a → load s.nodes (some a) = some n → n.np End.Head = none) ∧
    (∀ a n, r.ht End.Tail = some a → load s.nodes (some a) = some n → n.np End.Tail = none) ∧
    (∀ a b na nb, a ∈ fwd → b ∈ fwd → load s.nodes (some a) = some na →
      load s.nodes (some b) = some nb → (na.np End.Tail = some b ↔ nb.np End.Head = some a)) ∧
    walkAddrs s.nodes End.Head (s.nodes.length + 1) (r.ht End.Tail) = some fwd.reverse

/-! ## Memory lemmas -/

@[simp] theorem End.opp_opp (e : End) : e.opp.opp = e := by cases e <;> rfl

theorem End.opp_ne (e : End) : e.opp ≠ e := by cases e <;> decide

@[simp] theorem Node.np_setNp_same (n : Node) (e : End) (p : Ptr) : (n.setNp e p).np e = p := by
  cases e <;> rfl

@[simp] theorem Node.np_setNp_opp (n : Node) (e : End) (p : Ptr) :
    (n.setNp e p).np e.opp = n.np e.opp := by
  cases e <;> rfl

@[simp] theorem Node.np_setNp_opp2 (n : Node) (e : End) (p : Ptr) :
    (n.setNp e.opp p).np e = n.np e := by
  cases e <;> rfl

@[simp] theorem Node.data_setNp (n : Node) (e : End) (p : Ptr) : (n.setNp e p).data = n.data := by
  cases e <;> rfl

@[simp] theorem Rep.ht_setHt_same (r : Rep) (e : End) (p : Ptr) : (r.setHt e p).ht e = p := by
  cases e <;> rfl

@[simp] theorem Rep.ht_setHt_opp (r : Rep) (e : End) (p : Ptr) :
    (r.setHt e p).ht e.opp = r.ht e.opp := by
  cases e <;> rfl

@[simp] theorem Rep.ht_setHt_opp2 (r : Rep) (e : End) (p : Ptr) :
    (r.setHt e.opp p).ht e = r.ht e := by
  cases e <;> rfl

@[simp] theorem Rep.ht_mk_len (r : Rep) (n : Int) (e : End) :
    (⟨r.htHead, r.htTail, n⟩ : Rep).ht e = r.ht e := by
  cases e <;> rfl

@[simp] theorem Rep.len_setHt (r : Rep) (e : End) (p : Ptr) : (r.setHt e p).len = r.len := by
  cases e <;> rfl

theorem load_lt {nodes : List (Option Node)} {a : Nat} {n : Node}
    (h : load nodes (some a) = some n) : a < nodes.length := by
  by_contra hlt
  have : nodes[a]? = none := List.getElem?_eq_none (by omega)
  simp [load, this] at h

theorem load_store_same {nodes : List (Option Node)} {a : Nat} (n : Node)
    (h : a < nodes.length) : load (store nodes a n) (some a) = some n := by
  simp [load, store, List.getElem?_set_self, h]

theorem load_store_ne {nodes : List (Option Node)} {a b : Nat} (n : Node) (h : a ≠ b) :
    load (store nodes a n) (some b) = load nodes (some b) := by
  simp [load, store, List.getElem?_set_ne h]

theorem load_free_ne {nodes : List (Option Node)} {a b : Nat} (h : a ≠ b) :
    load (free nodes a) (some b) = load nodes (some b) := by
  simp [load, free, List.getElem?_set_ne h]

theorem load_append {nodes : List (Option Node)} {b : Nat} {n : Node}
    (l : List (Option Node)) (h : load nodes (some b) = some n) :
    load (nodes ++ l) (some b) = some n := by
  have hlt := load_lt h
  simpa [load, List.getElem?_append_left hlt] using h

theorem load_append_new (nodes : List (Option Node)) (n : Node) :
    load (nodes ++ [some n]) (some nodes.length) = some n := by
  simp [load]

@[simp] theorem length_store (nodes : List (Option Node)) (a : Nat) (n : Node) :
    (store nodes a n).length = nodes.length := by
  simp [store]

@[simp] theorem length_free (nodes : List (Option Node)) (a : Nat) :
    (free nodes a).length = nodes.length := by
  simp [free]

/-! ## Lemmas on linked runs -/

theorem firstOr_append (l1 l2 : Cells) (n : Ptr) :
    firstOr (l1 ++ l2) n = firstOr l1 (firstOr l2 n) := by
  cases l1 <;> rfl

theorem lastOr_append (l1 l2 : Cells) (p : Ptr) :
    lastOr (l1 ++ l2) p = lastOr l2 (lastOr l1 p) := by
  induction l1 generalizing p with
  | nil => rfl
  | cons c cs ih => simp [lastOr, ih]

theorem lastOr_reverse (l : Cells) (n : Ptr) : lastOr l.reverse n = firstOr l n := by
  cases l with
  | nil => rfl
  | cons c cs => simp [lastOr_append, lastOr, firstOr]

theorem firstOr_reverse (l : Cells) (p : Ptr) : firstOr l.reverse p = lastOr l p := by
  have h := lastOr_reverse l.reverse p
  rw [List.reverse_reverse] at h
  exact h.symm

theorem Linked.append {nodes : List (Option Node)} {d : End} (l1 l2 : Cells) (p n : Ptr) :
    Linked nodes d p (l1 ++ l2) n ↔
      Linked nodes d p l1 (firstOr l2 n) ∧ Linked nodes d (lastOr l1 p) l2 n := by
  induction l1 generalizing p with
  | nil => simp [Linked, lastOr]
  | cons c cs ih =>
    have e1 : ∀ q, Linked nodes d q (c :: (cs ++ l2)) n ↔
        (∃ nd, load nodes (some c.1) = some nd ∧ nd.np d.opp = q ∧
          nd.np d = firstOr (cs ++ l2) n ∧ nd.data = c.2) ∧
          Linked nodes d (some c.1) (cs ++ l2) n := fun _ => Iff.rfl
    have e2 : ∀ q m, Linked nodes d q (c :: cs) m ↔
        (∃ nd, load nodes (some c.1) = some nd ∧ nd.np d.opp = q ∧
          nd.np d = firstOr cs m ∧ nd.data = c.2) ∧
          Linked nodes d (some c.1) cs m := fun _ _ => Iff.rfl
    rw [List.cons_append, e1, e2, ih, firstOr_append]
    simp only [lastOr]
    tauto

theorem Linked.reverse_iff {nodes : List (Option Node)} {d : End} (l : Cells) (p n : Ptr) :
    Linked nodes d p l n ↔ Linked nodes d.opp n l.reverse p := by
  induction l generalizing p with
  | nil => simp [Linked]
  | cons c cs ih =>
    simp only [List.reverse_cons, Linked.append, Linked, firstOr, lastOr_reverse, ih,
      End.opp_opp, and_true]
    constructor
    · rintro ⟨⟨nd, h1, h2, h3, h4⟩, h5⟩
      exact ⟨h5, nd, h1, h3, h2, h4⟩
    · rintro ⟨h5, nd, h1, h3, h2, h4⟩
      exact ⟨⟨nd, h1, h2, h3, h4⟩, h5⟩

/-- A linked run only depends on the cells it names. -/
theorem Linked.congr {nodes nodes2 : List (Option Node)} {d : End} {cs : Cells} {p n : Ptr}
    (h : Linked nodes d p cs n)
    (hf : ∀ a ∈ cs.map Prod.fst, load nodes2 (some a) = load nodes (some a)) :
    Linked nodes2 d p cs n := by
  induction cs generalizing p with
  | nil => trivial
  | cons c cs ih =>
    obtain ⟨⟨nd, h1, h2⟩, h3⟩ := h
    refine ⟨⟨nd, ?_, h2⟩, ih h3 ?_⟩
    · rw [hf c.1 (by simp)]; exact h1
    · intro a ha
      exact hf a (by simp at ha ⊢; exact Or.inr ha)

theorem Linked.lt {nodes : List (Option Node)} {d : End} {cs : Cells} {p n : Ptr}
    (h : Linked nodes d p cs n) : ∀ a ∈ cs.map Prod.fst, a < nodes.length := by
  induction cs generalizing p with
  | nil => simp
  | cons c cs ih =>
    obtain ⟨⟨nd, h1, _⟩, h3⟩ := h
    intro a ha
    simp only [List.map_cons, List.mem_cons] at ha
    rcases ha with rfl | ha
    · exact load_lt h1
    · exact ih h3 a ha

/-- Rewriting the back link of the first cell of a run. -/
theorem Linked.setPrev {nodes : List (Option Node)} {d : End} {c : Nat × Data} {cs : Cells}
    {p n : Ptr} {nd : Node} (h : Linked nodes d p (c :: cs) n)
    (hnd : ((c :: cs).map Prod.fst).Nodup) (hl : load nodes (some c.1) = some nd) (q : Ptr) :
    Linked (store nodes c.1 (nd.setNp d.opp q)) d q (c :: cs) n := by
  obtain ⟨⟨nd2, h1, h2, h3, h4⟩, h5⟩ := h
  rw [hl] at h1
  cases h1
  simp only [List.map_cons, List.nodup_cons] at hnd
  refine ⟨⟨_, load_store_same _ (load_lt hl), by simp, by simpa using h3, by simpa using h4⟩, ?_⟩
  refine h5.congr ?_
  intro a ha
  exact load_store_ne _ (fun e => hnd.1 (e ▸ ha))

/-- Rewriting the forward link of the last cell of a run. -/
theorem Linked.setNext {nodes : List (Option Node)} {d : End} {c : Nat × Data} {cs : Cells}
    {p n : Ptr} {nd : Node} (h : Linked nodes d p (cs ++ [c]) n)
    (hnd : ((cs ++ [c]).map Prod.fst).Nodup) (hl : load nodes (some c.1) = some nd) (q : Ptr) :
    Linked (store nodes c.1 (nd.setNp d q)) d p (cs ++ [c]) q := by
  rw [Linked.reverse_iff] at h ⊢
  simp only [List.reverse_append, List.reverse_cons, List.reverse_nil, List.nil_append,
    List.singleton_append] at h ⊢
  have hnd2 : ((c :: cs.reverse).map Prod.fst).Nodup := by
    have := List.nodup_reverse.mpr hnd
    simpa [List.map_reverse] using this
  have := Linked.setPrev h hnd2 hl q
  simpa using this

/-! ## The operations on well-formed deques -/

theorem Shape.flip {s : State} {e : End} {cs : Cells} (h : Shape s e cs) :
    Shape s e.opp cs.reverse := by
  obtain ⟨r, hr, hh, ht, hlen, hnd, hl⟩ := h
  refine ⟨r, hr, ?_, ?_, ?_, ?_, ?_⟩
  · rw [firstOr_reverse]; exact ht
  · rw [lastOr_reverse, End.opp_opp]; exact hh
  · simpa using hlen
  · rw [List.map_reverse]; exact List.nodup_reverse.mpr hnd
  · rw [End.opp_opp]; rw [Linked.reverse_iff] at hl; simpa using hl

theorem Models.rev {s : State} {e : End} {xs : List Data} (h : Models s e xs) :
    Models s e.opp xs.reverse := by
  obtain ⟨cs, hs, hx⟩ := h
  exact ⟨cs.reverse, hs.flip, by rw [List.map_reverse, hx]⟩

theorem Models.of_reverse {s : State} {e : End} {xs : List Data}
    (h : Models s e.opp xs.reverse) : Models s e xs := by
  have := h.rev
  simpa using this

theorem deq_new_shape (e : End) : Shape deq_new e [] := by
  refine ⟨⟨none, none, 0⟩, rfl, ?_, ?_, rfl, by simp, trivial⟩ <;> cases e <;> rfl

theorem deq_new_models (e : End) : Models deq_new e [] :=
  ⟨[], deq_new_shape e, rfl⟩

theorem Shape.deq_len_eq {s : State} {e : End} {cs : Cells} (h : Shape s e cs) :
    deq_len s = some (cs.length : Int) := by
  obtain ⟨r, hr, -, -, hlen, -, -⟩ := h
  simp [deq_len, hr, hlen]

theorem Models.length_eq {s : State} {e : End} {xs : List Data} (h : Models s e xs) :
    deq_len s = some (xs.length : Int) := by
  obtain ⟨cs, hs, rfl⟩ := h
  simpa using hs.deq_len_eq

theorem put_shape {s : State} {e : End} {cs : Cells} (d : Data) (h : Shape s e cs) :
    ∃ s2, put s e d = some ⟨s2, (), []⟩ ∧ Shape s2 e ((s.nodes.length, d) :: cs) := by
  obtain ⟨r, hr, hh, ht, hlen, hnd, hl⟩ := h
  have hfresh : s.nodes.length ∉ cs.map Prod.fst := fun hm => by
    have := hl.lt _ hm
    omega
  cases cs with
  | nil =>
    have h0 : r.len = 0 := by simpa using hlen
    refine ⟨_, by simp [put, hr, malloc, h0]; rfl, ?_⟩
    refine ⟨_, rfl, ?_, ?_, ?_, by simp, ?_⟩
    · cases e <;> rfl
    · cases e <;> rfl
    · simp [h0]
    · refine ⟨⟨_, load_append_new _ _, ?_, ?_, rfl⟩, trivial⟩ <;> cases e <;> rfl
  | cons c cs =>
    have h0 : r.len ≠ 0 := by
      rw [hlen]; simp only [List.length_cons]; omega
    obtain ⟨⟨nd, h1, h2, h3, h4⟩, h5⟩ := id hl
    have hne : s.nodes.length ≠ c.1 := fun hm => hfresh (by simp [hm])
    have hload : ∀ x, load (store (s.nodes ++ [some (⟨none, none, d⟩ : Node)]) s.nodes.length x)
        (some c.1) = some nd := by
      intro x
      rw [load_store_ne _ hne]
      exact load_append _ h1
    have hhe : r.ht e = some c.1 := hh
    refine ⟨_, by simp [put, hr, malloc, h0, hhe, hload]; rfl, ?_⟩
    refine ⟨_, rfl, by simp [firstOr], ?_, ?_, ?_, ?_⟩
    · simpa [lastOr] using ht
    · simp [hlen]
    · simp only [List.map_cons, List.nodup_cons]
      exact ⟨by simpa using hfresh, by simpa using hnd⟩
    · have hl1 : Linked (store (s.nodes ++ [some (⟨none, none, d⟩ : Node)]) s.nodes.length
          ((⟨none, none, d⟩ : Node).setNp e.opp (some c.1))) e.opp none (c :: cs) none := by
        refine hl.congr ?_
        intro a ha
        have hlt := hl.lt a ha
        rw [load_store_ne _ (by omega)]
        simp [load, List.getElem?_append_left hlt]
      have hl2 := Linked.setPrev hl1 hnd (hload _) (some s.nodes.length)
      rw [End.opp_opp] at hl2
      refine ⟨⟨(⟨none, none, d⟩ : Node).setNp e.opp (some c.1), ?_, ?_, ?_, ?_⟩, hl2⟩
      · show load (store (store _ _ _) _ _) _ = _
        rw [load_store_ne _ (Ne.symm hne)]
        exact load_store_same _ (by simp)
      · cases e <;> rfl
      · cases e <;> rfl
      · cases e <;> rfl

theorem get_shape {s : State} {e : End} {c : Nat × Data} {cs : Cells}
    (h : Shape s e (c :: cs)) :
    ∃ s2, get s e = some ⟨s2, c.2, []⟩ ∧ Shape s2 e cs := by
  obtain ⟨r, hr, hh, ht, hlen, hnd, hl⟩ := h
  have h0 : r.len ≠ 0 := by
    rw [hlen]; simp only [List.length_cons]; omega
  obtain ⟨⟨nd, h1, h2, h3, h4⟩, h5⟩ := id hl
  have hhe : (if e = End.Head then r.ht End.Head else r.ht End.Tail) = some c.1 := by
    cases e <;> exact hh
  have hndc : c.1 ∉ cs.map Prod.fst := by
    simp only [List.map_cons, List.nodup_cons] at hnd
    exact hnd.1
  have hnd2 : (cs.map Prod.fst).Nodup := by
    simp only [List.map_cons, List.nodup_cons] at hnd
    exact hnd.2
  cases cs with
  | nil =>
    have h3n : nd.np e.opp = none := h3
    refine ⟨_, by simp [get, hr, h0, hhe, h1, h3n, h4]; rfl, ?_⟩
    refine ⟨_, rfl, by simp [firstOr], by simp [lastOr], ?_, by simp, trivial⟩
    simp [hlen]
  | cons b cs =>
    have h3n : nd.np e.opp = some b.1 := h3
    obtain ⟨⟨nb, hb1, hb2, hb3, hb4⟩, hb5⟩ := id h5
    have hne : b.1 ≠ c.1 := fun hm => hndc (by simp [hm])
    refine ⟨_, by simp [get, hr, h0, hhe, h1, h3n, h4, hb1]; rfl, ?_⟩
    refine ⟨_, rfl, by simp [firstOr], ?_, ?_, hnd2, ?_⟩
    · simpa [lastOr] using ht
    · simp [hlen]
    · have hl2 := Linked.setPrev h5 hnd2 hb1 none
      rw [End.opp_opp] at hl2
      refine hl2.congr ?_
      intro a ha
      exact load_free_ne (fun hm => hndc (hm ▸ ha))

theorem ithLoop_linked {nodes : List (Option Node)} {e : End} {cs : Cells} {p n : Ptr}
    (h : Linked nodes e.opp p cs n) (k : Nat) (hk : k < cs.length) :
    ithLoop nodes e k (firstOr cs n) = some (some cs[k].1) := by
  induction cs generalizing p k with
  | nil => simp at hk
  | cons c cs ih =>
    obtain ⟨⟨nd, h1, h2, h3, h4⟩, h5⟩ := h
    cases k with
    | zero => rfl
    | succ k =>
      have hk2 : k < cs.length := by simpa using hk
      have := ih h5 k hk2
      simp only [ithLoop, firstOr, h1, h3, List.getElem_cons_succ]
      exact this

theorem Linked.load_data {nodes : List (Option Node)} {d : End} {cs : Cells} {p n : Ptr}
    (h : Linked nodes d p cs n) (k : Nat) (hk : k < cs.length) :
    ∃ nd, load nodes (some cs[k].1) = some nd ∧ nd.data = cs[k].2 := by
  induction cs generalizing p k with
  | nil => simp at hk
  | cons c cs ih =>
    obtain ⟨⟨nd, h1, h2, h3, h4⟩, h5⟩ := h
    cases k with
    | zero => exact ⟨nd, h1, h4⟩
    | succ k => exact ih h5 k (by simpa using hk)

theorem ith_shape {s : State} {e : End} {cs : Cells} (h : Shape s e cs)
    (k : Nat) (hk : k < cs.length) :
    ith s e (k : Int) = some ⟨s, cs[k].2, []⟩ := by
  obtain ⟨r, hr, hh, ht, hlen, hnd, hl⟩ := h
  have hrange : ¬ ((k : Int) < 0 ∨ (k : Int) ≥ r.len) := by
    rw [hlen]; omega
  have hloop := ithLoop_linked hl k hk
  rw [← hh] at hloop
  obtain ⟨nd, hn1, hn2⟩ := hl.load_data k hk
  simp [ith, hr, hrange, hloop, hn1, hn2]

theorem ith_range {s : State} {e : End} {cs : Cells} (h : Shape s e cs)
    (i : Int) (hi : i < 0 ∨ i ≥ cs.length) :
    ith s e i = some ⟨s, 0, [Err.invalidIndex]⟩ := by
  obtain ⟨r, hr, hh, ht, hlen, hnd, hl⟩ := h
  rw [← hlen] at hi
  simp [ith, hr, hi]

theorem get_empty {s : State} {e : End} (h : Shape s e []) :
    get s e = some ⟨s, 0, [Err.emptyGet]⟩ := by
  obtain ⟨r, hr, hh, ht, hlen, hnd, hl⟩ := h
  have h0 : r.len = 0 := by simpa using hlen
  simp [get, hr, h0]

theorem firstOr_ne_nil {l : Cells} (h : l ≠ []) (n q : Ptr) : firstOr l n = firstOr l q := by
  cases l with
  | nil => exact absurd rfl h
  | cons c cs => rfl

theorem relink_spec {nodes : List (Option Node)} {r : Rep} {x : End} {l : Cells} {a : Nat}
    (q : Ptr) (hl : Linked nodes x.opp none l (some a)) (hnd : (l.map Prod.fst).Nodup)
    (hh : r.ht x = firstOr l (some a)) :
    ∃ nodes2 r2, relink nodes r x (lastOr l none) q = some (nodes2, r2) ∧
      Linked nodes2 x.opp none l q ∧ r2.ht x = firstOr l q ∧ r2.ht x.opp = r.ht x.opp ∧
      r2.len = r.len ∧
      (∀ b, b ∉ l.map Prod.fst → load nodes2 (some b) = load nodes (some b)) := by
  rcases List.eq_nil_or_concat l with rfl | ⟨l1, c, hc⟩
  on_goal 2 => rw [List.concat_eq_append] at hc; subst hc
  · exact ⟨nodes, r.setHt x q, rfl, trivial, by simp [firstOr], by simp, by simp,
      fun _ _ => rfl⟩
  · have hlast : lastOr (l1 ++ [c]) none = some c.1 := by simp [lastOr_append, lastOr]
    obtain ⟨-, ⟨nd, h1, -⟩, -⟩ := (Linked.append l1 [c] none (some a)).mp hl
    refine ⟨store nodes c.1 (nd.setNp x.opp q), r, by simp [relink, hlast, h1], ?_, ?_, rfl,
      rfl, ?_⟩
    · exact Linked.setNext hl hnd h1 q
    · rw [hh]; exact firstOr_ne_nil (by simp) _ _
    · intro b hb
      exact load_store_ne _ (fun hm => hb (by simp [← hm]))

theorem remUnlink_shape {s : State} {r : Rep} {l1 l2 : Cells} {a : Nat} {d : Data} {nd : Node}
    (h : Shape s End.Head (l1 ++ (a, d) :: l2)) (hr : s.rep = some r)
    (hload : load s.nodes (some a) = some nd) :
    ∃ s2, remUnlink s.nodes r a nd = some ⟨s2, d, []⟩ ∧ Shape s2 End.Head (l1 ++ l2) := by
  obtain ⟨r0, hr0, hh, ht, hlen, hnd, hl⟩ := h
  rw [hr] at hr0
  cases hr0
  obtain ⟨hA, ⟨nd0, h1, h2, h3, h4⟩, hB⟩ := (Linked.append l1 ((a, d) :: l2) none none).mp hl
  rw [hload] at h1
  cases h1
  have hprev : nd.np End.Head = lastOr l1 none := h2
  have hnext : nd.np End.Tail = firstOr l2 none := h3
  have hdata : nd.data = d := h4
  simp only [List.map_append, List.map_cons, List.nodup_append, List.nodup_cons,
    List.mem_cons, List.disjoint_cons_right, not_or] at hnd
  obtain ⟨hnd1, ⟨ha2, hnd2⟩, ha1, hdis⟩ := hnd
  have hA2 : Linked s.nodes End.Tail none l1 (some a) := hA
  obtain ⟨nodes1, r1, e1, hL1, hH1, hT1, hlen1, hf1⟩ :=
    relink_spec (r := r) (x := End.Head) (firstOr l2 none) hA2 hnd1
      (by rw [hh, firstOr_append]; rfl)
  have hB1 : Linked nodes1 End.Head none l2.reverse (some a) := by
    have : Linked s.nodes End.Head none l2.reverse (some a) := by
      have := (Linked.reverse_iff l2 (some a) none).mp hB
      exact this
    refine this.congr ?_
    intro b hb
    refine hf1 b (fun hm => ?_)
    rw [List.map_reverse, List.mem_reverse] at hb
    exact hdis hm hb
  obtain ⟨nodes2, r2, e2, hL2, hH2, hT2, hlen2, hf2⟩ :=
    relink_spec (r := r1) (x := End.Tail) (lastOr l1 none) hB1
      (by rw [List.map_reverse]; exact List.nodup_reverse.mpr hnd2)
      (by
        have : r1.ht End.Tail = r.ht End.Tail := hT1
        rw [this, firstOr_reverse]
        have : r.ht End.Tail = lastOr (l1 ++ (a, d) :: l2) none := ht
        rw [this, lastOr_append]; rfl)
  rw [lastOr_reverse] at e2
  have hloada : load nodes2 (some a) = some nd := by
    rw [hf2 a (by rw [List.map_reverse, List.mem_reverse]; exact ha2), hf1 a ha1]
    exact hload
  refine ⟨_, by simp [remUnlink, hprev, hnext, e1, e2, hloada, hdata]; rfl, ?_⟩
  refine ⟨_, rfl, ?_, ?_, ?_, ?_, ?_⟩
  · have h5 : r2.ht End.Head = r1.ht End.Head := hT2
    have h6 : r1.ht End.Head = firstOr l1 (firstOr l2 none) := hH1
    simp only [Rep.ht_mk_len, firstOr_append, h5, h6]
  · have h5 : r2.ht End.Tail = firstOr l2.reverse (lastOr l1 none) := hH2
    change Rep.ht _ End.Tail = _
    simp only [Rep.ht_mk_len, lastOr_append, h5, firstOr_reverse]
  · simp only [hlen2, hlen1, hlen, List.length_append, List.length_cons]
    push_cast
    ring
  · simp only [List.map_append, List.nodup_append]
    exact ⟨hnd1, hnd2, fun x h1 h2 => hdis h1 h2⟩
  · have hL1b : Linked nodes2 End.Tail none l1 (firstOr l2 none) := by
      refine Linked.congr hL1 ?_
      intro b hb
      refine hf2 b (fun hm => ?_)
      rw [List.map_reverse, List.mem_reverse] at hm
      exact hdis hb hm
    have hL2b : Linked nodes2 End.Tail (lastOr l1 none) l2 none := by
      exact (@Linked.reverse_iff nodes2 End.Tail l2 (lastOr l1 none) none).mpr hL2
    have hall : Linked nodes2 End.Tail none (l1 ++ l2) none :=
      (Linked.append l1 l2 none none).mpr ⟨hL1b, hL2b⟩
    refine hall.congr ?_
    intro b hb
    refine load_free_ne (fun hm => ?_)
    subst hm
    simp only [List.map_append, List.mem_append] at hb
    rcases hb with hb | hb
    · exact ha1 hb
    · exact ha2 hb

theorem remLoop_found {s : State} {r : Rep} {e : End} {d : Data} {l1 l2 : Cells} {a : Nat}
    {p n : Ptr} (hl : Linked s.nodes e.opp p (l1 ++ (a, d) :: l2) n)
    (hnot : d ∉ l1.map Prod.snd) (fuel : Nat) (hf : l1.length < fuel) :
    ∃ nd, load s.nodes (some a) = some nd ∧
      remLoop s r e d fuel (firstOr (l1 ++ (a, d) :: l2) n) = remUnlink s.nodes r a nd := by
  induction l1 generalizing p fuel with
  | nil =>
    obtain ⟨⟨nd, h1, h2, h3, h4⟩, -⟩ := hl
    have h4d : nd.data = d := h4
    refine ⟨nd, h1, ?_⟩
    cases fuel with
    | zero => simp at hf
    | succ fuel =>
      have h1a : load s.nodes (some a) = some nd := h1
      simp [remLoop, firstOr, h1a, h4d]
  | cons c cs ih =>
    obtain ⟨⟨nc, h1, h2, h3, h4⟩, h5⟩ := hl
    cases fuel with
    | zero => simp at hf
    | succ fuel =>
      simp only [List.map_cons, List.mem_cons, not_or] at hnot
      obtain ⟨nd, hn1, hn2⟩ := ih h5 hnot.2 fuel (by simpa using hf)
      refine ⟨nd, hn1, ?_⟩
      have hne : nc.data ≠ d := fun hm => hnot.1 (by rw [← hm, h4])
      have hstep : (if e = End.Head then nc.np End.Tail else nc.np End.Head) = nc.np e.opp := by
        cases e <;> rfl
      simp only [List.cons_append, firstOr, remLoop, h1, hne, if_false, hstep]
      rw [h3]
      exact hn2

theorem remLoop_absent {s : State} {r : Rep} {e : End} {d : Data} {l : Cells} {p : Ptr}
    (hl : Linked s.nodes e.opp p l none) (hnot : d ∉ l.map Prod.snd) (fuel : Nat)
    (hf : l.length ≤ fuel) :
    remLoop s r e d fuel (firstOr l none) = some ⟨s, 0, []⟩ := by
  induction l generalizing p fuel with
  | nil => cases fuel <;> rfl
  | cons c cs ih =>
    obtain ⟨⟨nc, h1, h2, h3, h4⟩, h5⟩ := hl
    cases fuel with
    | zero => simp at hf
    | succ fuel =>
      simp only [List.map_cons, List.mem_cons, not_or] at hnot
      have hne : nc.data ≠ d := fun hm => hnot.1 (by rw [← hm, h4])
      have hstep : (if e = End.Head then nc.np End.Tail else nc.np End.Head) = nc.np e.opp := by
        cases e <;> rfl
      simp only [firstOr, remLoop, h1, hne, if_false, hstep]
      rw [h3]
      exact ih h5 hnot.2 fuel (by simpa using hf)

theorem Shape.length_le {s : State} {e : End} {cs : Cells} (h : Shape s e cs) :
    cs.length ≤ s.nodes.length := by
  obtain ⟨r, hr, hh, ht, hlen, hnd, hl⟩ := h
  have hsub : cs.map Prod.fst ⊆ List.range s.nodes.length := by
    intro a ha
    exact List.mem_range.mpr (hl.lt a ha)
  have := (List.subperm_of_subset hnd hsub).length_le
  simpa using this

theorem rem_shape {s : State} {e : End} {l1 l2 : Cells} {a : Nat} {d : Data}
    (h : Shape s e (l1 ++ (a, d) :: l2)) (hnot : d ∉ l1.map Prod.snd) :
    ∃ s2, rem s e d = some ⟨s2, d, []⟩ ∧ Shape s2 e (l1 ++ l2) := by
  have hle := h.length_le
  obtain ⟨r, hr, hh, ht, hlen, hnd, hl⟩ := id h
  have h0 : r.len ≠ 0 := by
    rw [hlen]; simp only [List.length_append, List.length_cons]; omega
  have hhe : (if e = End.Head then r.ht End.Head else r.ht End.Tail) =
      firstOr (l1 ++ (a, d) :: l2) none := by
    cases e <;> exact hh
  obtain ⟨nd, hn1, hn2⟩ := remLoop_found (r := r) hl hnot (s.nodes.length + 1) (by
    simp only [List.length_append, List.length_cons] at hle; omega)
  have hrem : rem s e d = remUnlink s.nodes r a nd := by
    simp only [rem, hr, h0, if_false, hhe]
    exact hn2
  rw [hrem]
  cases e with
  | Head => exact remUnlink_shape h hr hn1
  | Tail =>
    have hrev : Shape s End.Head (l2.reverse ++ (a, d) :: l1.reverse) := by
      have := h.flip
      simpa using this
    obtain ⟨s2, h1, h2⟩ := remUnlink_shape hrev hr hn1
    refine ⟨s2, h1, ?_⟩
    have := h2.flip
    simpa using this

theorem rem_absent {s : State} {e : End} {cs : Cells} {d : Data}
    (h : Shape s e cs) (hnot : d ∉ cs.map Prod.snd) :
    rem s e d = some ⟨s, 0, []⟩ := by
  have hle := h.length_le
  obtain ⟨r, hr, hh, ht, hlen, hnd, hl⟩ := h
  have hhe : (if e = End.Head then r.ht End.Head else r.ht End.Tail) = firstOr cs none := by
    cases e <;> exact hh
  simp only [rem, hr, hhe]
  split
  · rfl
  · exact remLoop_absent hl hnot _ (by omega)

/-! ## The operations in terms of contents -/

theorem put_models {s : State} {e : End} {xs : List Data} (x : Data) (h : Models s e xs) :
    ∃ s2, put s e x = some ⟨s2, (), []⟩ ∧ Models s2 e (x :: xs) := by
  obtain ⟨cs, hs, rfl⟩ := h
  obtain ⟨s2, h1, h2⟩ := put_shape x hs
  exact ⟨s2, h1, _, h2, rfl⟩

theorem get_models {s : State} {e : End} {x : Data} {xs : List Data}
    (h : Models s e (x :: xs)) :
    ∃ s2, get s e = some ⟨s2, x, []⟩ ∧ Models s2 e xs := by
  obtain ⟨cs, hs, hx⟩ := h
  obtain ⟨c, cs2, rfl, hc, rfl⟩ := List.map_eq_cons_iff.mp hx
  obtain ⟨s2, h1, h2⟩ := get_shape hs
  rw [hc] at h1
  exact ⟨s2, h1, _, h2, rfl⟩

theorem get_models_nil {s : State} {e : End} (h : Models s e []) :
    get s e = some ⟨s, 0, [Err.emptyGet]⟩ := by
  obtain ⟨cs, hs, hx⟩ := h
  have : cs = [] := by simpa using hx
  subst this
  exact get_empty hs

theorem ith_models {s : State} {e : End} {xs : List Data} (h : Models s e xs)
    (k : Nat) (hk : k < xs.length) :
    ith s e (k : Int) = some ⟨s, xs[k], []⟩ := by
  obtain ⟨cs, hs, rfl⟩ := h
  have hk2 : k < cs.length := by simpa using hk
  rw [ith_shape hs k hk2]
  simp

theorem ith_models_range {s : State} {e : End} {xs : List Data} (h : Models s e xs)
    (i : Int) (hi : i < 0 ∨ i ≥ xs.length) :
    ith s e i = some ⟨s, 0, [Err.invalidIndex]⟩ := by
  obtain ⟨cs, hs, rfl⟩ := h
  exact ith_range hs i (by simpa using hi)

theorem rem_models {s : State} {e : End} {l1 l2 : List Data} {d : Data}
    (h : Models s e (l1 ++ d :: l2)) (hnot : d ∉ l1) :
    ∃ s2, rem s e d = some ⟨s2, d, []⟩ ∧ Models s2 e (l1 ++ l2) := by
  obtain ⟨cs, hs, hx⟩ := h
  obtain ⟨c1, c2, rfl, rfl, hc2⟩ := List.map_eq_append_iff.mp hx
  obtain ⟨c, c3, rfl, hc, rfl⟩ := List.map_eq_cons_iff.mp hc2
  obtain ⟨a, d2⟩ := c
  simp only at hc
  subst hc
  obtain ⟨s2, h1, h2⟩ := rem_shape hs hnot
  exact ⟨s2, h1, _, h2, by simp⟩

theorem rem_models_absent {s : State} {e : End} {xs : List Data} {d : Data}
    (h : Models s e xs) (hnot : d ∉ xs) : rem s e d = some ⟨s, 0, []⟩ := by
  obtain ⟨cs, hs, rfl⟩ := h
  exact rem_absent hs hnot

/-- The contents listed from end `e`, given the head-to-tail contents. -/
theorem Models.view {s : State} {xs : List Data} (h : Models s End.Head xs) (e : End) :
    Models s e (match e with | End.Head => xs | End.Tail => xs.reverse) := by
  cases e with
  | Head => exact h
  | Tail => exact h.rev

theorem walkLoop_linked {nodes : List (Option Node)} {cs : Cells} {p : Ptr}
    (h : Linked nodes End.Tail p cs none) (fuel : Nat) (hf : cs.length ≤ fuel) :
    walkLoop nodes fuel (firstOr cs none) = some (cs.map Prod.snd) := by
  induction cs generalizing p fuel with
  | nil => cases fuel <;> rfl
  | cons c cs ih =>
    obtain ⟨⟨nd, h1, h2, h3, h4⟩, h5⟩ := h
    cases fuel with
    | zero => simp at hf
    | succ fuel =>
      show walkLoop nodes (fuel + 1) (some c.1) = _
      simp only [walkLoop, h1, List.map_cons]
      rw [h3, ih h5 fuel (by simpa using hf), h4]
      rfl

theorem Models.contents {s : State} {xs : List Data} (h : Models s End.Head xs) :
    contents s = some xs := by
  obtain ⟨cs, hs, rfl⟩ := h
  have hle := hs.length_le
  obtain ⟨r, hr, hh, ht, hlen, hnd, hl⟩ := hs
  simp only [Deq.contents, hr, hh]
  exact walkLoop_linked hl _ (by omega)

theorem sample_models : Models sample End.Head [10, 20, 10] := by
  refine ⟨[(0, 10), (1, 20), (2, 10)], ⟨⟨some 0, some 2, 3⟩, rfl, rfl, rfl, rfl, by decide, ?_⟩,
    rfl⟩
  exact ⟨⟨_, rfl, rfl, rfl, rfl⟩, ⟨_, rfl, rfl, rfl, rfl⟩, ⟨_, rfl, rfl, rfl, rfl⟩, trivial⟩

/-! ## Sequences of calls -/

theorem run_append {a b : List Op} {s s1 s2 : State} {o1 o2 : List Data} {e1 e2 : List Err}
    (h1 : run a s = some (s1, o1, e1)) (h2 : run b s1 = some (s2, o2, e2)) :
    run (a ++ b) s = some (s2, o1 ++ o2, e1 ++ e2) := by
  induction a generalizing s o1 e1 with
  | nil =>
    simp only [run, Option.some.injEq, Prod.mk.injEq] at h1
    obtain ⟨rfl, rfl, rfl⟩ := h1
    simpa using h2
  | cons op ops ih =>
    cases op with
    | put e d =>
      simp only [run, List.cons_append] at h1 ⊢
      cases hp : put s e d with
      | none => simp [hp] at h1
      | some o =>
        simp only [hp] at h1 ⊢
        cases hr : run ops o.st with
        | none => simp [hr] at h1
        | some t =>
          obtain ⟨t1, t2, t3⟩ := t
          simp only [hr, Option.some.injEq, Prod.mk.injEq] at h1
          obtain ⟨rfl, rfl, rfl⟩ := h1
          simp [ih hr]
    | get e =>
      simp only [run, List.cons_append] at h1 ⊢
      cases hp : get s e with
      | none => simp [hp] at h1
      | some o =>
        simp only [hp] at h1 ⊢
        cases hr : run ops o.st with
        | none => simp [hr] at h1
        | some t =>
          obtain ⟨t1, t2, t3⟩ := t
          simp only [hr, Option.some.injEq, Prod.mk.injEq] at h1
          obtain ⟨rfl, rfl, rfl⟩ := h1
          simp [ih hr]

theorem run_puts {s : State} {e : End} {ys : List Data} (xs : List Data)
    (h : Models s e ys) :
    ∃ s1, run (xs.map (Op.put e)) s = some (s1, [], []) ∧ Models s1 e (xs.reverse ++ ys) := by
  induction xs generalizing s ys with
  | nil => exact ⟨s, rfl, by simpa using h⟩
  | cons x xs ih =>
    obtain ⟨s1, h1, h2⟩ := put_models x h
    obtain ⟨s2, h3, h4⟩ := ih h2
    refine ⟨s2, ?_, by simpa using h4⟩
    simp [run, h1, h3]

theorem run_gets {s : State} {e : End} (xs : List Data) {zs : List Data}
    (h : Models s e (xs ++ zs)) :
    ∃ s2, run (List.replicate xs.length (Op.get e)) s = some (s2, xs, []) ∧ Models s2 e zs := by
  induction xs generalizing s with
  | nil => exact ⟨s, rfl, by simpa using h⟩
  | cons x xs ih =>
    obtain ⟨s1, h1, h2⟩ := get_models h
    obtain ⟨s2, h3, h4⟩ := ih h2
    refine ⟨s2, ?_, h4⟩
    simp [List.replicate_succ, run, h1, h3]

theorem put_head_models {s : State} {xs : List Data} (e : End) (x : Data)
    (h : Models s End.Head xs) :
    ∃ s2, put s e x = some ⟨s2, (), []⟩ ∧
      Models s2 End.Head (match e with | End.Head => x :: xs | End.Tail => xs ++ [x]) := by
  cases e with
  | Head => exact put_models x h
  | Tail =>
    obtain ⟨s2, h1, h2⟩ := put_models x h.rev
    refine ⟨s2, h1, ?_⟩
    have := h2.rev
    simpa using this

theorem get_head_models {s : State} {xs : List Data} (e : End)
    (h : Models s End.Head xs) (hx : xs ≠ []) :
    ∃ s2 x rest, get s e = some ⟨s2, x, []⟩ ∧
      (e = End.Head → xs = x :: rest) ∧ (e = End.Tail → xs = rest ++ [x]) ∧
      Models s2 End.Head rest := by
  cases e with
  | Head =>
    obtain ⟨x, rest, rfl⟩ := List.exists_cons_of_ne_nil hx
    obtain ⟨s2, h1, h2⟩ := get_models h
    exact ⟨s2, x, rest, h1, fun _ => rfl, (fun hc => by cases hc), h2⟩
  | Tail =>
    obtain ⟨rest, x, rfl⟩ : ∃ rest x, xs = rest ++ [x] :=
      ⟨xs.dropLast, xs.getLast hx, (List.dropLast_append_getLast hx).symm⟩
    have hm : Models s End.Tail (x :: rest.reverse) := by
      have := h.rev
      simpa using this
    obtain ⟨s2, h1, h2⟩ := get_models hm
    have h3 : Models s2 End.Head rest := Models.of_reverse (e := End.Head) h2
    exact ⟨s2, x, rest, h1, (fun hc => by cases hc), fun _ => rfl, h3⟩

theorem run_counts {s : State} {xs : List Data} (ops : List Op)
    (h : Models s End.Head xs) (hs : noEmptyGet ops s = true) :
    ∃ s2 outs ys, run ops s = some (s2, outs, []) ∧ Models s2 End.Head ys ∧
      (ys.length : Int) = xs.length + countPuts ops - countGets ops := by
  induction ops generalizing s xs with
  | nil => exact ⟨s, [], xs, rfl, h, by simp [countPuts, countGets]⟩
  | cons op ops ih =>
    cases op with
    | put e d =>
      obtain ⟨s1, h1, h2⟩ := put_head_models e d h
      simp only [noEmptyGet, h1] at hs
      obtain ⟨s2, outs, ys, h3, h4, h5⟩ := ih h2 hs
      refine ⟨s2, outs, ys, by simp [run, h1, h3], h4, ?_⟩
      rw [h5]
      cases e <;> simp [countPuts, countGets] <;> ring
    | get e =>
      simp only [noEmptyGet, Bool.and_eq_true, decide_eq_true_eq] at hs
      have hx : xs ≠ [] := by
        rintro rfl
        exact hs.1 (by simpa using h.length_eq)
      obtain ⟨s1, x, rest, h1, ha, hb, h2⟩ := get_head_models e h hx
      have hs2 := hs.2
      simp only [h1] at hs2
      obtain ⟨s2, outs, ys, h3, h4, h5⟩ := ih h2 hs2
      refine ⟨s2, x :: outs, ys, by simp [run, h1, h3], h4, ?_⟩
      rw [h5]
      have hl : xs.length = rest.length + 1 := by
        cases e with
        | Head => rw [ha rfl]; simp
        | Tail => rw [hb rfl]; simp
      rw [hl]
      simp only [countPuts, countGets]
      push_cast
      ring

theorem noEmptyGet_gets {s : State} {xs : List Data} (gs : List End)
    (h : Models s End.Head xs) (hk : gs.length ≤ xs.length) :
    noEmptyGet (gs.map Op.get) s = true := by
  induction gs generalizing s xs with
  | nil => rfl
  | cons e gs ih =>
    have hx : xs ≠ [] := by
      rintro rfl
      simp at hk
    obtain ⟨s1, x, rest, h1, ha, hb, h2⟩ := get_head_models e h hx
    have hl : xs.length = rest.length + 1 := by
      cases e with
      | Head => rw [ha rfl]; simp
      | Tail => rw [hb rfl]; simp
    have hne : deq_len s ≠ some 0 := by
      rw [h.length_eq, hl]
      simp only [ne_eq, Option.some.injEq]
      omega
    simp only [List.map_cons, noEmptyGet, Bool.and_eq_true, decide_eq_true_eq, h1]
    exact ⟨hne, ih h2 (by simp only [List.length_cons] at hk; omega)⟩

theorem noEmptyGet_puts_gets {s : State} {xs : List Data} (ps : List (End × Data))
    (gs : List End) (h : Models s End.Head xs) (hk : gs.length ≤ xs.length + ps.length) :
    noEmptyGet (ps.map (fun p => Op.put p.1 p.2) ++ gs.map Op.get) s = true := by
  induction ps generalizing s xs with
  | nil => exact noEmptyGet_gets gs h (by simpa using hk)
  | cons p ps ih =>
    obtain ⟨s1, h1, h2⟩ := put_head_models p.1 p.2 h
    simp only [List.map_cons, List.cons_append, noEmptyGet, h1]
    refine ih h2 ?_
    simp only [List.length_cons] at hk
    cases p.1 <;> simp <;> omega

theorem countPuts_puts_gets (ps : List (End × Data)) (gs : List End) :
    countPuts (ps.map (fun p => Op.put p.1 p.2) ++ gs.map Op.get) = ps.length ∧
    countGets (ps.map (fun p => Op.put p.1 p.2) ++ gs.map Op.get) = gs.length := by
  induction ps with
  | nil =>
    induction gs with
    | nil => exact ⟨rfl, rfl⟩
    | cons g gs ih =>
      simp only [List.map_nil, List.nil_append, List.map_cons, countPuts, countGets,
        List.length_nil, List.length_cons] at ih ⊢
      exact ⟨ih.1, by rw [ih.2]⟩
  | cons p ps ih =>
    refine ⟨?_, ?_⟩
    · show countPuts (_ ++ _) + 1 = _
      rw [ih.1]; rfl
    · show countGets (_ ++ _) = _
      exact ih.2

/-! ## The properties of the Deque Core -/

/-- C1. FIFO across opposite ends: from the new deque, putting the elements of
`xs` in order at end `e` and then making `|xs|` gets at the opposite end
returns exactly `xs` in insertion order, reports no error, and leaves the
deque empty with length 0. -/
theorem fifo_across_ends (e : End) (xs : List Data) :
    ∃ s2, run (xs.map (Op.put e) ++ List.replicate xs.length (Op.get e.opp)) deq_new =
        some (s2, xs, []) ∧
      Models s2 End.Head [] ∧ deq_len s2 = some 0 ∧ contents s2 = some [] := by
  obtain ⟨s1, h1, h2⟩ := run_puts xs (deq_new_models e)
  have h3 : Models s1 e.opp (xs ++ []) := by
    have := h2.rev
    simpa using this
  obtain ⟨s2, h4, h5⟩ := run_gets xs h3
  have h6 : Models s2 End.Head [] := by
    cases e with
    | Head => exact Models.of_reverse h5
    | Tail => exact h5
  refine ⟨s2, ?_, h6, by simpa using h6.length_eq, h6.contents⟩
  simpa using run_append h1 h4

/-- C2. Removal by value, found case: on a deque with head-to-tail contents
`xs` in which `d` occurs, `rem(e, d)` returns `d` without an error, the
length goes down by exactly 1, and the contents left are `xs` with one
occurrence of `d` deleted and all other elements in their order: the first
occurrence when `e = Head`, the last one when `e = Tail`. -/
theorem rem_found_removes_first_match (s : State) (xs : List Data) (e : End) (d : Data)
    (h : Models s End.Head xs) (hd : d ∈ xs) :
    ∃ s2 l1 l2, xs = l1 ++ d :: l2 ∧ (e = End.Head → d ∉ l1) ∧ (e = End.Tail → d ∉ l2) ∧
      rem s e d = some ⟨s2, d, []⟩ ∧ Models s2 End.Head (l1 ++ l2) ∧
      contents s2 = some (l1 ++ l2) ∧ deq_len s = some (xs.length : Int) ∧
      deq_len s2 = some ((xs.length : Int) - 1) := by
  cases e with
  | Head =>
    obtain ⟨l1, l2, hx, hn⟩ := List.eq_append_cons_of_mem hd
    subst hx
    obtain ⟨s2, h1, h2⟩ := rem_models h hn
    refine ⟨s2, l1, l2, rfl, fun _ => hn, (fun hc => by cases hc), h1, h2, h2.contents, h.length_eq, ?_⟩
    rw [h2.length_eq]
    simp only [List.length_append, List.length_cons]
    push_cast
    congr 1
    ring
  | Tail =>
    have hd2 : d ∈ xs.reverse := List.mem_reverse.mpr hd
    obtain ⟨m1, m2, hx, hn⟩ := List.eq_append_cons_of_mem hd2
    have hx2 : xs = m2.reverse ++ d :: m1.reverse := by
      have := congrArg List.reverse hx
      simpa using this
    have hm : Models s End.Tail (m1 ++ d :: m2) := by
      have := h.rev
      rw [hx] at this
      exact this
    obtain ⟨s2, h1, h2⟩ := rem_models hm hn
    have h3 : Models s2 End.Head (m2.reverse ++ m1.reverse) := by
      have := h2.rev
      simpa using this
    refine ⟨s2, m2.reverse, m1.reverse, hx2, (fun hc => by cases hc),
      fun _ => by simpa using hn, h1, h3, h3.contents, h.length_eq, ?_⟩
    rw [h3.length_eq, hx2]
    simp only [List.length_append, List.length_cons, List.length_reverse]
    push_cast
    congr 1
    ring

/-- Witness of C2 on the sample deque 10, 20, 10 with `rem(Tail, 10)`. -/
theorem rem_found_removes_first_match_witness :
    Models sample End.Head [10, 20, 10] ∧ (10 : Data) ∈ [10, 20, 10] ∧
    ∃ s2 l1 l2, [10, 20, 10] = l1 ++ 10 :: l2 ∧ (End.Tail = End.Head → 10 ∉ l1) ∧
      (End.Tail = End.Tail → 10 ∉ l2) ∧
      rem sample End.Tail 10 = some ⟨s2, 10, []⟩ ∧ Models s2 End.Head (l1 ++ l2) ∧
      contents s2 = some (l1 ++ l2) ∧ deq_len sample = some (([10, 20, 10] : List Data).length : Int) ∧
      deq_len s2 = some ((([10, 20, 10] : List Data).length : Int) - 1) :=
  ⟨sample_models, by decide,
    rem_found_removes_first_match sample [10, 20, 10] End.Tail 10 sample_models (by decide)⟩

/-- C3. Removal by value, absent case: on a deque in which `d` does not occur,
`rem(e, d)` returns the sentinel 0, reports no error, and leaves the memory,
hence the length and the head-to-tail contents, as it was. -/
theorem rem_absent_returns_zero (s : State) (xs : List Data) (e : End) (d : Data)
    (h : Models s End.Head xs) (hd : d ∉ xs) :
    rem s e d = some ⟨s, 0, []⟩ := by
  cases e with
  | Head => exact rem_models_absent h hd
  | Tail => exact rem_models_absent h.rev (by simpa using hd)

/-- Witness of C3 on the sample deque 10, 20, 10 with `rem(Head, 7)`. -/
theorem rem_absent_returns_zero_witness :
    Models sample End.Head [10, 20, 10] ∧ (7 : Data) ∉ [10, 20, 10] ∧
    rem sample End.Head 7 = some ⟨sample, 0, []⟩ :=
  ⟨sample_models, by decide,
    rem_absent_returns_zero sample [10, 20, 10] End.Head 7 sample_models (by decide)⟩

/-- C4. The call `get(e)` fails exactly when the length is 0: on an empty deque
it reports the empty-deque error, returns 0 and leaves the memory as it was;
on a non-empty deque it reports nothing, returns the payload at end `e`,
removes exactly that element and the length goes down by 1. -/
theorem get_fails_iff_empty (s : State) (xs : List Data) (e : End)
    (h : Models s End.Head xs) :
    (deq_len s = some 0 → get s e = some ⟨s, 0, [Err.emptyGet]⟩) ∧
    (deq_len s ≠ some 0 → ∃ s2 x rest, get s e = some ⟨s2, x, []⟩ ∧
      (e = End.Head → xs = x :: rest) ∧ (e = End.Tail → xs = rest ++ [x]) ∧
      Models s2 End.Head rest ∧ contents s2 = some rest ∧
      deq_len s = some (xs.length : Int) ∧ deq_len s2 = some ((xs.length : Int) - 1)) := by
  have hlen := h.length_eq
  constructor
  · intro h0
    rw [hlen] at h0
    have hx : xs = [] := by
      have : (xs.length : Int) = 0 := by simpa using h0
      exact List.length_eq_zero.mp (by exact_mod_cast this)
    subst hx
    cases e with
    | Head => exact get_models_nil h
    | Tail => exact get_models_nil h.rev
  · intro h0
    have hx : xs ≠ [] := by
      rintro rfl
      exact h0 (by simpa using hlen)
    obtain ⟨s2, x, rest, h1, ha, hb, h2⟩ := get_head_models e h hx
    refine ⟨s2, x, rest, h1, ha, hb, h2, h2.contents, hlen, ?_⟩
    have hl : xs.length = rest.length + 1 := by
      cases e with
      | Head => rw [ha rfl]; simp
      | Tail => rw [hb rfl]; simp
    rw [h2.length_eq, hl]
    simp

/-- Witness of C4 on the sample deque 10, 20, 10 with `get(Tail)`. -/
theorem get_fails_iff_empty_witness :
    Models sample End.Head [10, 20, 10] ∧
    ((deq_len sample = some 0 → get sample End.Tail = some ⟨sample, 0, [Err.emptyGet]⟩) ∧
    (deq_len sample ≠ some 0 → ∃ s2 x rest, get sample End.Tail = some ⟨s2, x, []⟩ ∧
      (End.Tail = End.Head → [10, 20, 10] = x :: rest) ∧
      (End.Tail = End.Tail → [10, 20, 10] = rest ++ [x]) ∧
      Models s2 End.Head rest ∧ contents s2 = some rest ∧
      deq_len sample = some (([10, 20, 10] : List Data).length : Int) ∧
      deq_len s2 = some ((([10, 20, 10] : List Data).length : Int) - 1))) :=
  ⟨sample_models, get_fails_iff_empty sample [10, 20, 10] End.Tail sample_models⟩

/-- C5. The call `ith` is an indexed lookup: on a deque with head-to-tail
contents `xs` and for every `k` with `0 <= k < length`, `ith(Head, k)` returns
`xs[k]` and `ith(Tail, k)` returns `xs[length - 1 - k]`, so that
`ith(Tail, k) = ith(Head, length - 1 - k)`; no error is reported and the
memory is left as it was. -/
theorem ith_indexed_lookup (s : State) (xs : List Data) (k : Nat)
    (h : Models s End.Head xs) (hk : k < xs.length) :
    ith s End.Head (k : Int) = some ⟨s, xs[k], []⟩ ∧
    ith s End.Tail (k : Int) = some ⟨s, xs[xs.length - 1 - k], []⟩ ∧
    ith s End.Tail (k : Int) = ith s End.Head ((xs.length : Int) - 1 - k) ∧
    deq_len s = some (xs.length : Int) := by
  have h1 := ith_models h k hk
  have hk2 : k < xs.reverse.length := by simpa using hk
  have h2 := ith_models h.rev k hk2
  have hcast : (xs.length : Int) - 1 - k = ((xs.length - 1 - k : Nat) : Int) := by omega
  have h3 : ith s End.Head ((xs.length : Int) - 1 - k) =
      some ⟨s, xs[xs.length - 1 - k], []⟩ :=
    (congrArg (ith s End.Head) hcast).trans (ith_models h (xs.length - 1 - k) (by omega))
  have h4 : xs.reverse[k] = xs[xs.length - 1 - k] := List.getElem_reverse hk2
  refine ⟨h1, ?_, ?_, h.length_eq⟩
  · rw [← h4]; exact h2
  · rw [h3, ← h4]; exact h2

/-- Witness of C5 on the sample deque 10, 20, 10 at index 1. -/
theorem ith_indexed_lookup_witness :
    Models sample End.Head [10, 20, 10] ∧ 1 < ([10, 20, 10] : List Data).length ∧
    ith sample End.Head 1 = some ⟨sample, 20, []⟩ :=
  ⟨sample_models, by decide,
    (ith_indexed_lookup sample [10, 20, 10] 1 sample_models (by decide)).1⟩

/-- C6. The call `ith(e, i)` fails exactly when `i < 0` or `i >= length`: for
such an `i` it reports the index error, returns 0 (no element is substituted)
and leaves the memory as it was; for `0 <= i < length` it reports no error
and returns an element of the deque, the memory again as it was. -/
theorem ith_fails_iff_out_of_range (s : State) (xs : List Data) (e : End) (i : Int)
    (h : Models s End.Head xs) :
    deq_len s = some (xs.length : Int) ∧
    ((i < 0 ∨ i ≥ xs.length) → ith s e i = some ⟨s, 0, [Err.invalidIndex]⟩) ∧
    ((0 ≤ i ∧ i < xs.length) → ∃ v, v ∈ xs ∧ ith s e i = some ⟨s, v, []⟩) := by
  have hv := h.view e
  refine ⟨h.length_eq, ?_, ?_⟩
  · intro hi
    cases e with
    | Head => exact ith_models_range h i hi
    | Tail => exact ith_models_range h.rev i (by simpa using hi)
  · rintro ⟨h0, h1⟩
    obtain ⟨k, rfl⟩ := Int.eq_ofNat_of_zero_le h0
    have hk : k < xs.length := by exact_mod_cast h1
    cases e with
    | Head => exact ⟨xs[k], List.getElem_mem _, ith_models h k hk⟩
    | Tail =>
      have hk2 : k < xs.reverse.length := by simpa using hk
      exact ⟨xs.reverse[k], List.mem_reverse.mp (List.getElem_mem _), ith_models h.rev k hk2⟩

/-- Witness of C6 on the sample deque 10, 20, 10 at index 3 from the tail. -/
theorem ith_fails_iff_out_of_range_witness :
    Models sample End.Head [10, 20, 10] ∧
    ith sample End.Tail 3 = some ⟨sample, 0, [Err.invalidIndex]⟩ :=
  ⟨sample_models,
    (ith_fails_iff_out_of_range sample [10, 20, 10] End.Tail 3 sample_models).2.1
      (Or.inr (by decide))⟩

/-- C7. Length accounting: for every list of `put` and `get` calls, each at an
end of its own, made on the new deque with no `get` called while the length
is 0, all calls return without an error and the final length is the number
of puts minus the number of gets; in particular `n` puts followed by `k <= n`
gets never meet an empty deque and leave the length `n - k`. -/
theorem length_accounting :
    (∀ ops : List Op, noEmptyGet ops deq_new = true →
      ∃ s2 outs, run ops deq_new = some (s2, outs, []) ∧
        deq_len s2 = some ((countPuts ops : Int) - countGets ops)) ∧
    (∀ (ps : List (End × Data)) (gs : List End), gs.length ≤ ps.length →
      ∃ s2 outs, run (ps.map (fun p => Op.put p.1 p.2) ++ gs.map Op.get) deq_new =
          some (s2, outs, []) ∧
        deq_len s2 = some ((ps.length : Int) - gs.length)) := by
  have key : ∀ ops : List Op, noEmptyGet ops deq_new = true →
      ∃ s2 outs, run ops deq_new = some (s2, outs, []) ∧
        deq_len s2 = some ((countPuts ops : Int) - countGets ops) := by
    intro ops hs
    obtain ⟨s2, outs, ys, h1, h2, h3⟩ := run_counts ops (deq_new_models End.Head) hs
    refine ⟨s2, outs, h1, ?_⟩
    rw [h2.length_eq, h3]
    simp
  refine ⟨key, ?_⟩
  intro ps gs hk
  have hs := noEmptyGet_puts_gets ps gs (deq_new_models End.Head) (by simpa using hk)
  obtain ⟨s2, outs, h1, h2⟩ := key _ hs
  refine ⟨s2, outs, h1, ?_⟩
  rw [h2, (countPuts_puts_gets ps gs).1, (countPuts_puts_gets ps gs).2]

/-- Witness of C7: two puts at different ends and one get. -/
theorem length_accounting_witness :
    noEmptyGet [Op.put End.Tail 1, Op.put End.Head 2, Op.get End.Tail] deq_new = true ∧
    ∃ s2 outs, run [Op.put End.Tail 1, Op.put End.Head 2, Op.get End.Tail] deq_new =
        some (s2, outs, []) ∧
      deq_len s2 = some ((countPuts [Op.put End.Tail 1, Op.put End.Head 2, Op.get End.Tail] : Int) -
        countGets [Op.put End.Tail 1, Op.put End.Head 2, Op.get End.Tail]) :=
  ⟨by decide, length_accounting.1 [Op.put End.Tail 1, Op.put End.Head 2, Op.get End.Tail]
    (by decide)⟩

/-- C8. Round trip: on every deque, `put(e, x)` immediately followed by
`get(e)` returns `x`, reports no error, and restores the prior length and
the prior head-to-tail contents. -/
theorem put_get_round_trip (s : State) (xs : List Data) (e : End) (x : Data)
    (h : Models s End.Head xs) :
    ∃ s1 s2, put s e x = some ⟨s1, (), []⟩ ∧ get s1 e = some ⟨s2, x, []⟩ ∧
      Models s2 End.Head xs ∧ deq_len s2 = deq_len s ∧ contents s2 = contents s := by
  have key : ∀ v, Models s e v → ∃ s1 s2, put s e x = some ⟨s1, (), []⟩ ∧
      get s1 e = some ⟨s2, x, []⟩ ∧ Models s2 e v := by
    intro v hv
    obtain ⟨s1, h1, h2⟩ := put_models x hv
    obtain ⟨s2, h3, h4⟩ := get_models h2
    exact ⟨s1, s2, h1, h3, h4⟩
  cases e with
  | Head =>
    obtain ⟨s1, s2, h1, h3, h5⟩ := key xs h
    exact ⟨s1, s2, h1, h3, h5, by rw [h5.length_eq, h.length_eq], by rw [h5.contents, h.contents]⟩
  | Tail =>
    obtain ⟨s1, s2, h1, h3, h4⟩ := key xs.reverse h.rev
    have h5 : Models s2 End.Head xs := Models.of_reverse (e := End.Head) h4
    exact ⟨s1, s2, h1, h3, h5, by rw [h5.length_eq, h.length_eq], by rw [h5.contents, h.contents]⟩

/-- Witness of C8 on the sample deque 10, 20, 10 with `put(Tail, 5)`. -/
theorem put_get_round_trip_witness :
    Models sample End.Head [10, 20, 10] ∧
    ∃ s1 s2, put sample End.Tail 5 = some ⟨s1, (), []⟩ ∧ get s1 End.Tail = some ⟨s2, 5, []⟩ ∧
      Models s2 End.Head [10, 20, 10] ∧ deq_len s2 = deq_len sample ∧
      contents s2 = contents sample :=
  ⟨sample_models, put_get_round_trip sample [10, 20, 10] End.Tail 5 sample_models⟩

/-- C9. LIFO on one end: on every deque, putting the elements of `xs` in order
at end `e` and then making `|xs|` gets at the same end returns the elements
of `xs` in reverse insertion order, reports no error, and leaves the deque
with its original head-to-tail contents. -/
theorem lifo_same_end (s : State) (xs0 : List Data) (e : End) (xs : List Data)
    (h : Models s End.Head xs0) :
    ∃ s2, run (xs.map (Op.put e) ++ List.replicate xs.length (Op.get e)) s =
        some (s2, xs.reverse, []) ∧
      Models s2 End.Head xs0 ∧ contents s2 = some xs0 ∧ deq_len s2 = deq_len s := by
  have key : ∀ v, Models s e v → ∃ s2,
      run (xs.map (Op.put e) ++ List.replicate xs.length (Op.get e)) s =
        some (s2, xs.reverse, []) ∧ Models s2 e v := by
    intro v hv
    obtain ⟨s1, h1, h2⟩ := run_puts xs hv
    obtain ⟨s2, h3, h4⟩ := run_gets xs.reverse h2
    rw [List.length_reverse] at h3
    exact ⟨s2, by simpa using run_append h1 h3, h4⟩
  cases e with
  | Head =>
    obtain ⟨s2, h1, h2⟩ := key xs0 h
    exact ⟨s2, h1, h2, h2.contents, by rw [h2.length_eq, h.length_eq]⟩
  | Tail =>
    obtain ⟨s2, h1, h2⟩ := key xs0.reverse h.rev
    have h3 : Models s2 End.Head xs0 := Models.of_reverse (e := End.Head) h2
    exact ⟨s2, h1, h3, h3.contents, by rw [h3.length_eq, h.length_eq]⟩

/-- Witness of C9 on the sample deque 10, 20, 10, pushing 1, 2, 3 at the head. -/
theorem lifo_same_end_witness :
    Models sample End.Head [10, 20, 10] ∧
    ∃ s2, run (([1, 2, 3] : List Data).map (Op.put End.Head) ++
        List.replicate ([1, 2, 3] : List Data).length (Op.get End.Head)) sample =
        some (s2, ([1, 2, 3] : List Data).reverse, []) ∧
      Models s2 End.Head [10, 20, 10] ∧ contents s2 = some [10, 20, 10] ∧
      deq_len s2 = deq_len sample :=
  ⟨sample_models, lifo_same_end sample [10, 20, 10] End.Head [1, 2, 3] sample_models⟩

/-- C10. On every deque, empty or not, immediately after `put(e, x)` the call
`ith(e, 0)` returns `x` without an error: index 0 from an end is the element
most recently inserted there. -/
theorem ith_zero_after_put (s : State) (xs : List Data) (e : End) (x : Data)
    (h : Models s End.Head xs) :
    ∃ s2, put s e x = some ⟨s2, (), []⟩ ∧ ith s2 e 0 = some ⟨s2, x, []⟩ := by
  obtain ⟨s2, h1, h2⟩ := put_models x (h.view e)
  exact ⟨s2, h1, ith_models h2 0 (by simp)⟩

/-- Witness of C10 on the new, empty deque with `put(Head, 9)`. -/
theorem ith_zero_after_put_witness :
    Models deq_new End.Head [] ∧
    ∃ s2, put deq_new End.Head 9 = some ⟨s2, (), []⟩ ∧ ith s2 End.Head 0 = some ⟨s2, 9, []⟩ :=
  ⟨deq_new_models End.Head, ith_zero_after_put deq_new [] End.Head 9 (deq_new_models End.Head)⟩

/-! ## Traversals: `deq_map`, `deq_del`, `deq_str` -/

theorem zeroDeq_models : Models zeroDeq End.Head [0] := by
  refine ⟨[(0, 0)], ⟨⟨some 0, some 0, 1⟩, rfl, rfl, rfl, rfl, by decide, ?_⟩, rfl⟩
  exact ⟨⟨_, rfl, rfl, rfl, rfl⟩, trivial⟩

theorem mapLoop_linked {nodes : List (Option Node)} {cs : Cells} {p : Ptr}
    (h : Linked nodes End.Tail p cs none) (fuel : Nat) (hf : cs.length ≤ fuel) :
    mapLoop nodes fuel (firstOr cs none) = some (cs.map (fun c => Event.call c.2)) := by
  induction cs generalizing p fuel with
  | nil => cases fuel <;> rfl
  | cons c cs ih =>
    obtain ⟨⟨nd, h1, h2, h3, h4⟩, h5⟩ := h
    cases fuel with
    | zero => simp at hf
    | succ fuel =>
      show mapLoop nodes (fuel + 1) (some c.1) = _
      simp only [mapLoop, h1, List.map_cons]
      rw [h3, ih h5 fuel (by simpa using hf), h4]
      rfl

theorem delLoop_linked {nodes : List (Option Node)} {cs : Cells} {p : Ptr}
    (h : Linked nodes End.Tail p cs none) (hnd : (cs.map Prod.fst).Nodup)
    (fuel : Nat) (hf : cs.length ≤ fuel) :
    ∃ nodes2, delLoop nodes fuel (firstOr cs none) =
      some (nodes2, cs.map (fun c => Event.release c.1)) := by
  induction cs generalizing nodes p fuel with
  | nil => exact ⟨nodes, by cases fuel <;> rfl⟩
  | cons c cs ih =>
    obtain ⟨⟨nd, h1, h2, h3, h4⟩, h5⟩ := h
    simp only [List.map_cons, List.nodup_cons] at hnd
    cases fuel with
    | zero => simp at hf
    | succ fuel =>
      have h6 : Linked (free nodes c.1) End.Tail (some c.1) cs none := by
        refine h5.congr ?_
        intro a ha
        exact load_free_ne (fun hm => hnd.1 (hm ▸ ha))
      obtain ⟨nodes2, h7⟩ := ih h6 hnd.2 fuel (by simpa using hf)
      refine ⟨nodes2, ?_⟩
      show delLoop nodes (fuel + 1) (some c.1) = _
      simp only [delLoop, h1, List.map_cons]
      rw [h3, h7]

theorem deq_map_models {s : State} {xs : List Data} (h : Models s End.Head xs) :
    deq_map s = some ⟨s, xs.map Event.call, []⟩ := by
  obtain ⟨cs, hs, rfl⟩ := h
  have hle := hs.length_le
  obtain ⟨r, hr, hh, ht, hlen, hnd, hl⟩ := hs
  simp only [deq_map, hr, hh]
  rw [mapLoop_linked hl _ (by omega)]
  simp [Function.comp_def]

theorem strLoop_linked {nodes : List (Option Node)} {cs : Cells} {p : Ptr}
    (f : Option (Data → Str)) (text : Data → Str)
    (h : Linked nodes End.Tail p cs none) (fuel : Nat) (hf : cs.length ≤ fuel) (acc : Str) :
    strLoop nodes f text fuel (firstOr cs none) acc =
      some ((cs.map (fun c => render f text c.2)).foldl
        (fun t d => t ++ (if t = ("") then ("") else (" ")) ++ d) acc) := by
  induction cs generalizing p fuel acc with
  | nil => cases fuel <;> rfl
  | cons c cs ih =>
    obtain ⟨⟨nd, h1, h2, h3, h4⟩, h5⟩ := h
    cases fuel with
    | zero => simp at hf
    | succ fuel =>
      show strLoop nodes f text (fuel + 1) (some c.1) acc = _
      simp only [strLoop, h1, List.map_cons, List.foldl_cons]
      rw [h3, ih h5 fuel (by simpa using hf), h4]

theorem deq_str_models {s : State} {xs : List Data} (f : Option (Data → Str))
    (text : Data → Str) (h : Models s End.Head xs) :
    deq_str s f text = some ((xs.map (render f text)).foldl
      (fun t d => t ++ (if t = ("") then ("") else (" ")) ++ d) ("")) := by
  obtain ⟨cs, hs, rfl⟩ := h
  have hle := hs.length_le
  obtain ⟨r, hr, hh, ht, hlen, hnd, hl⟩ := hs
  simp only [deq_str, hr, hh]
  rw [strLoop_linked f text hl _ (by omega)]
  simp [Function.comp_def]

theorem spaceJoin_append_head (p y : Str) (l : List Str) :
    spaceJoin ((p ++ y) :: l) = p ++ spaceJoin (y :: l) := by
  cases l with
  | nil => rfl
  | cons z l => simp only [spaceJoin, String.append_assoc]

theorem append_ne_empty {a : Str} (b : Str) (h : a ≠ ("")) : a ++ b ≠ ("") := by
  intro hc
  apply h
  have := congrArg String.data hc
  simp only [String.data_append, List.append_eq_nil] at this
  exact String.ext this.1

theorem foldl_spaceJoin (l : List Str) (acc : Str) (h : acc ≠ ("")) :
    l.foldl (fun t d => t ++ (if t = ("") then ("") else (" ")) ++ d) acc =
      spaceJoin (acc :: l) := by
  induction l generalizing acc with
  | nil => rfl
  | cons y l ih =>
    simp only [List.foldl_cons, if_neg h]
    rw [ih _ (append_ne_empty _ (append_ne_empty _ h))]
    rw [String.append_assoc, spaceJoin_append_head]
    cases l with
    | nil => simp [spaceJoin, String.append_assoc]
    | cons z l => simp [spaceJoin, String.append_assoc]

/-! ## Properties of removal by value and of the traversals -/

/-- C15. On a deque with head-to-tail contents `xs`, `deq_del` with a function
calls it exactly once per payload, in head-to-tail order, which is the call
sequence of `deq_map` (and `deq_map` leaves the memory as it was); all these
calls come before the release of any node, one release per node, then the
release of the `Rep`; with no function no call is made. -/
theorem del_calls_before_release (s : State) (xs : List Data) (h : Models s End.Head xs) :
    ∃ (addrs : List Nat) (nodes2 : List (Option Node)), addrs.length = xs.length ∧ addrs.Nodup ∧
      deq_map s = some ⟨s, xs.map Event.call, []⟩ ∧
      deq_del s true = some ⟨⟨nodes2, none⟩,
        xs.map Event.call ++ addrs.map Event.release ++ [Event.releaseRep], []⟩ ∧
      deq_del s false = some ⟨⟨nodes2, none⟩,
        addrs.map Event.release ++ [Event.releaseRep], []⟩ := by
  have hmap := deq_map_models h
  obtain ⟨cs, hs, rfl⟩ := h
  have hle := hs.length_le
  obtain ⟨r, hr, hh, ht, hlen, hnd, hl⟩ := hs
  have hh2 : r.ht End.Head = firstOr cs none := hh
  obtain ⟨nodes2, hdel⟩ := delLoop_linked hl hnd (s.nodes.length + 1) (by omega)
  rw [← hh2] at hdel
  refine ⟨cs.map Prod.fst, nodes2, by simp, hnd, hmap, ?_, ?_⟩
  · simp [deq_del, hmap, hr, hdel, Function.comp_def]
  · simp [deq_del, hr, hdel, Function.comp_def]

/-- Witness of C15 on the sample deque 10, 20, 10. -/
theorem del_calls_before_release_witness :
    Models sample End.Head [10, 20, 10] ∧
    ∃ (addrs : List Nat) (nodes2 : List (Option Node)), addrs.length = ([10, 20, 10] : List Data).length ∧ addrs.Nodup ∧
      deq_map sample = some ⟨sample, ([10, 20, 10] : List Data).map Event.call, []⟩ ∧
      deq_del sample true = some ⟨⟨nodes2, none⟩,
        ([10, 20, 10] : List Data).map Event.call ++ addrs.map Event.release ++
          [Event.releaseRep], []⟩ ∧
      deq_del sample false = some ⟨⟨nodes2, none⟩,
        addrs.map Event.release ++ [Event.releaseRep], []⟩ :=
  ⟨sample_models, del_calls_before_release sample [10, 20, 10] sample_models⟩

/-- C16, the claim fails on the zero payload: on the deque holding the single
payload 0, `rem(Head, 0)` finds and removes it and returns 0, the value that
also stands for not found. -/
theorem rem_zero_payload_is_sentinel :
    Models zeroDeq End.Head [0] ∧
    ¬ ((rem zeroDeq End.Head 0).map Outcome.ret = some 0 ↔ (0 : Data) ∉ [0]) := by
  refine ⟨zeroDeq_models, ?_⟩
  decide

/-- C16, amended. For every payload `d` other than 0, `rem(e, d)` returns 0
exactly when `d` does not occur in the deque; for `d = 0` it returns 0 whether
0 occurs or not; and whenever `d` does not occur the result is 0 and the
memory is as it was. -/
theorem rem_sentinel_iff_absent (s : State) (xs : List Data) (e : End) (d : Data)
    (h : Models s End.Head xs) :
    ∃ o, rem s e d = some o ∧ (d ≠ 0 → (o.ret = 0 ↔ d ∉ xs)) ∧ (d = 0 → o.ret = 0) ∧
      (d ∉ xs → o.ret = 0 ∧ o.st = s) := by
  have hv := h.view e
  have hmem : d ∈ xs ↔ d ∈ (match e with | End.Head => xs | End.Tail => xs.reverse) := by
    cases e <;> simp
  by_cases hd : d ∈ xs
  · obtain ⟨l1, l2, hx, hn⟩ := List.eq_append_cons_of_mem (hmem.mp hd)
    rw [hx] at hv
    obtain ⟨s2, h1, -⟩ := rem_models hv hn
    exact ⟨_, h1, fun h0 => ⟨fun hz => absurd hz h0, fun hz => absurd hd hz⟩, fun h0 => h0,
      fun hz => absurd hd hz⟩
  · have h1 := rem_models_absent hv (fun hm => hd (hmem.mpr hm))
    exact ⟨_, h1, fun _ => ⟨fun _ => hd, fun _ => rfl⟩, fun _ => rfl, fun _ => ⟨rfl, rfl⟩⟩

/-- Witness of C16, amended, on the sample deque 10, 20, 10 with `rem(Tail, 20)`. -/
theorem rem_sentinel_iff_absent_witness :
    Models sample End.Head [10, 20, 10] ∧
    ∃ o, rem sample End.Tail 20 = some o ∧ ((20 : Data) ≠ 0 → (o.ret = 0 ↔ (20 : Data) ∉ [10, 20, 10])) ∧
      ((20 : Data) = 0 → o.ret = 0) ∧
      ((20 : Data) ∉ [10, 20, 10] → o.ret = 0 ∧ o.st = sample) :=
  ⟨sample_models, rem_sentinel_iff_absent sample [10, 20, 10] End.Tail 20 sample_models⟩

/-- C17, the code at the failing input: on the sample deque 10, 20, 10 the call
`rem(Head, 7)` finds no match and returns 0, not the 7 that was passed in. -/
theorem rem_miss_returns_zero_not_data :
    Models sample End.Head [10, 20, 10] ∧ (7 : Data) ∉ [10, 20, 10] ∧
    rem sample End.Head 7 = some ⟨sample, 0, []⟩ ∧ (0 : Data) ≠ 7 :=
  ⟨sample_models, by decide, by decide, by decide⟩

/-- C14, the claim fails when a rendering is empty: on the sample deque
10, 20, 10 with a formatter that renders 10 as the empty string and 20 as
`b`, `deq_str` returns `b` followed by a space, not the single-space join of
the three renderings, which is `b` between two spaces. -/
theorem deq_str_empty_rendering_not_join :
    Models sample End.Head [10, 20, 10] ∧
    deq_str sample (some (fun d => if d = 10 then ("") else ("b"))) (fun _ => ("")) =
      some ("b ") ∧
    spaceJoin (([10, 20, 10] : List Data).map
      (render (some (fun d => if d = 10 then ("") else ("b"))) (fun _ => ("")))) = (" b ") ∧
    deq_str sample (some (fun d => if d = 10 then ("") else ("b"))) (fun _ => ("")) ≠
      some (spaceJoin (([10, 20, 10] : List Data).map
        (render (some (fun d => if d = 10 then ("") else ("b"))) (fun _ => (""))))) :=
  ⟨sample_models, by decide, by decide, by decide⟩

/-- C14, amended. On a deque with head-to-tail contents `xs`, `deq_str` returns
the renderings in head-to-tail order, each preceded by one space exactly when
the text built before it is not empty; so when the first rendering is not
empty, or there is at most one payload, the result is the renderings joined
with exactly one space between consecutive ones and none added before the
first or after the last; for the empty deque it is the empty string. -/
theorem deq_str_space_join (s : State) (xs : List Data) (f : Option (Data → Str))
    (text : Data → Str) (h : Models s End.Head xs) :
    deq_str s f text = some ((xs.map (render f text)).foldl
      (fun t d => t ++ (if t = ("") then ("") else (" ")) ++ d) ("")) ∧
    (xs = [] → deq_str s f text = some ("")) ∧
    ((xs.length ≤ 1 ∨ ∃ x rest, xs = x :: rest ∧ render f text x ≠ ("")) →
      deq_str s f text = some (spaceJoin (xs.map (render f text)))) := by
  have hstr := deq_str_models f text h
  refine ⟨hstr, ?_, ?_⟩
  · rintro rfl
    exact hstr
  · intro hc
    rw [hstr]
    cases xs with
    | nil => rfl
    | cons x rest =>
      simp only [List.map_cons, List.foldl_cons, String.empty_append, if_true]
      rcases hc with hc | ⟨x2, rest2, hx, hne⟩
      · have : rest = [] := by
          simp only [List.length_cons] at hc
          exact List.length_eq_zero.mp (by omega)
        subst this
        rfl
      · simp only [List.cons.injEq] at hx
        obtain ⟨rfl, rfl⟩ := hx
        rw [foldl_spaceJoin _ _ hne]

/-- Witness of C14, amended, on the sample deque 10, 20, 10 with no formatter
and payload texts `a`, `b`. -/
theorem deq_str_space_join_witness :
    Models sample End.Head [10, 20, 10] ∧
    deq_str sample none (fun d => if d = 10 then ("a") else ("b")) = some ("a b a") :=
  ⟨sample_models,
    ((deq_str_space_join sample [10, 20, 10] none (fun d => if d = 10 then ("a") else ("b"))
      sample_models).2.2 (Or.inr ⟨10, [20, 10], rfl, by decide⟩)).trans (by decide)⟩

/-! ## The bounded queue: every call is the deque call behind its guard -/

theorem Models.rep_eq {s : State} {e : End} {xs : List Data} (h : Models s e xs) :
    ∃ r, s.rep = some r ∧ r.len = xs.length := by
  obtain ⟨cs, ⟨r, hr, -, -, hlen, -, -⟩, rfl⟩ := h
  exact ⟨r, hr, by simpa using hlen⟩

theorem viaRep_some {α : Type} {s : State} {r : Rep} (o : Option (Outcome α))
    (h : s.rep = some r) : viaRep s o = o := by
  cases o with
  | none => rfl
  | some x => simp [viaRep, repErrs, h]

theorem mtq_put_eq {m : Mrep} {r : Rep} (e : End) (d : Data) (hr : m.q.rep = some r) :
    mtq_put m e d =
      if r.len ≥ m.max ∧ m.max > 0 then some (Call.waits Signal.consumed)
      else (put m.q e d).map
        (fun o => Call.returns { m with q := o.st } o.ret [Signal.produced] o.errs) := by
  cases e <;>
    simp only [mtq_put, mtq_head_put, mtq_tail_put, deq_head_put, deq_tail_put,
      viaRep_some _ hr, deq_len, hr, Option.map_some'] <;>
    split <;> try rfl
  all_goals cases put m.q _ d <;> rfl

theorem mtq_get_eq {m : Mrep} {r : Rep} (e : End) (hr : m.q.rep = some r) :
    mtq_get m e =
      if r.len = 0 then some (Call.waits Signal.produced)
      else (get m.q e).map
        (fun o => Call.returns { m with q := o.st } o.ret [Signal.consumed] o.errs) := by
  cases e <;>
    simp only [mtq_get, mtq_head_get, mtq_tail_get, deq_head_get, deq_tail_get,
      viaRep_some _ hr, deq_len, hr, Option.map_some'] <;>
    split <;> try rfl
  all_goals cases get m.q _ <;> rfl

theorem mtq_ith_eq {m : Mrep} {r : Rep} (e : End) (i : Int) (hr : m.q.rep = some r) :
    mtq_ith m e i =
      if r.len - 1 < i then some (Call.waits Signal.produced)
      else (ith m.q e i).map
        (fun o => Call.returns { m with q := o.st } o.ret [Signal.consumed] o.errs) := by
  cases e <;>
    simp only [mtq_ith, mtq_head_ith, mtq_tail_ith, deq_head_ith, deq_tail_ith,
      viaRep_some _ hr, deq_len, hr, Option.map_some'] <;>
    split <;> try rfl
  all_goals cases ith m.q _ i <;> rfl

theorem mtq_rem_eq {m : Mrep} {r : Rep} (e : End) (d : Data) (hr : m.q.rep = some r) :
    mtq_rem m e d =
      if r.len = 0 then some (Call.waits Signal.produced)
      else (rem m.q e d).map
        (fun o => Call.returns { m with q := o.st } o.ret [Signal.consumed] o.errs) := by
  cases e <;>
    simp only [mtq_rem, mtq_head_rem, mtq_tail_rem, deq_head_rem, deq_tail_rem,
      viaRep_some _ hr, deq_len, hr, Option.map_some'] <;>
    split <;> try rfl
  all_goals cases rem m.q _ d <;> rfl

/-! ## The deque calls are total on well-formed deques -/

theorem get_total {s : State} {xs : List Data} (e : End) (h : Models s End.Head xs) :
    ∃ o ys, get s e = some o ∧ Models o.st End.Head ys ∧ ys.length ≤ xs.length := by
  by_cases hx : xs = []
  · subst hx
    have hv : Models s e [] := by
      cases e with
      | Head => exact h
      | Tail => exact h.rev
    exact ⟨_, [], get_models_nil hv, h, le_refl _⟩
  · obtain ⟨s2, x, rest, h1, ha, hb, h2⟩ := get_head_models e h hx
    refine ⟨_, rest, h1, h2, ?_⟩
    cases e with
    | Head => rw [ha rfl]; simp
    | Tail => rw [hb rfl]; simp

theorem ith_total {s : State} {xs : List Data} (e : End) (i : Int)
    (h : Models s End.Head xs) :
    ∃ o, ith s e i = some o ∧ o.st = s := by
  have hv := h.view e
  have hlen : (match e with | End.Head => xs | End.Tail => xs.reverse).length = xs.length := by
    cases e <;> simp
  by_cases hi : i < 0 ∨ i ≥ xs.length
  · exact ⟨_, ith_models_range hv i (by rw [hlen]; exact hi), rfl⟩
  · have h0 : 0 ≤ i := by omega
    obtain ⟨k, rfl⟩ := Int.eq_ofNat_of_zero_le h0
    exact ⟨_, ith_models hv k (by rw [hlen]; omega), rfl⟩

theorem rem_total {s : State} {xs : List Data} (e : End) (d : Data)
    (h : Models s End.Head xs) :
    ∃ o ys, rem s e d = some o ∧ Models o.st End.Head ys ∧ ys.length ≤ xs.length := by
  have hv := h.view e
  have hmem : d ∈ xs ↔ d ∈ (match e with | End.Head => xs | End.Tail => xs.reverse) := by
    cases e <;> simp
  by_cases hd : d ∈ xs
  · obtain ⟨l1, l2, hx, hn⟩ := List.eq_append_cons_of_mem (hmem.mp hd)
    rw [hx] at hv
    obtain ⟨s2, h1, h2⟩ := rem_models hv hn
    have hlen : (l1 ++ l2).length ≤ xs.length := by
      have : (l1 ++ d :: l2).length = xs.length := by
        rw [← hx]; cases e <;> simp
      rw [← this]; simp
    cases e with
    | Head => exact ⟨_, _, h1, h2, hlen⟩
    | Tail =>
      refine ⟨_, (l1 ++ l2).reverse, h1, ?_, by rw [List.length_reverse]; exact hlen⟩
      have := h2.rev
      exact this
  · have h1 := rem_models_absent hv (fun hm => hd (hmem.mpr hm))
    exact ⟨_, xs, h1, h, le_refl _⟩

/-! ## Executions of the bounded queue -/

theorem mtq_call_step {m m2 : Mrep} {xs : List Data} {op : MOp} {ret : Option Data}
    {sigs : List Signal} {errs : List Err} (h : Models m.q End.Head xs)
    (hc : mtq_call m op = some (Call.returns m2 ret sigs errs)) :
    m2.max = m.max ∧ ∃ ys, Models m2.q End.Head ys ∧
      (ys.length ≤ xs.length ∨
        (ys.length = xs.length + 1 ∧ ¬ ((xs.length : Int) ≥ m.max ∧ m.max > 0))) := by
  obtain ⟨r, hr, hlen⟩ := h.rep_eq
  cases op with
  | put e d =>
    obtain ⟨s2, h1, h2⟩ := put_head_models e d h
    simp only [mtq_call, mtq_put_eq e d hr, hlen, h1] at hc
    by_cases hg : (xs.length : Int) ≥ m.max ∧ m.max > 0
    · simp [hg, Call.void] at hc
    · simp only [hg, if_false, Option.map_some', Call.void, Option.some.injEq,
        Call.returns.injEq] at hc
      obtain ⟨rfl, -, -, -⟩ := hc
      refine ⟨rfl, _, h2, Or.inr ⟨?_, hg⟩⟩
      cases e <;> simp
  | get e =>
    obtain ⟨o, ys, h1, h2, h3⟩ := get_total e h
    simp only [mtq_call, mtq_get_eq e hr, hlen, h1] at hc
    split at hc
    · simp [Call.withValue] at hc
    · simp only [Option.map_some', Call.withValue, Option.some.injEq, Call.returns.injEq] at hc
      obtain ⟨rfl, -, -, -⟩ := hc
      exact ⟨rfl, ys, h2, Or.inl h3⟩
  | ith e i =>
    obtain ⟨o, h1, h2⟩ := ith_total e i h
    simp only [mtq_call, mtq_ith_eq e i hr, hlen, h1] at hc
    split at hc
    · simp [Call.withValue] at hc
    · simp only [Option.map_some', Call.withValue, Option.some.injEq, Call.returns.injEq] at hc
      obtain ⟨rfl, -, -, -⟩ := hc
      refine ⟨rfl, xs, ?_, Or.inl (le_refl _)⟩
      show Models o.st End.Head xs
      rw [h2]; exact h
  | rem e d =>
    obtain ⟨o, ys, h1, h2, h3⟩ := rem_total e d h
    simp only [mtq_call, mtq_rem_eq e d hr, hlen, h1] at hc
    split at hc
    · simp [Call.withValue] at hc
    · simp only [Option.map_some', Call.withValue, Option.some.injEq, Call.returns.injEq] at hc
      obtain ⟨rfl, -, -, -⟩ := hc
      exact ⟨rfl, ys, h2, Or.inl h3⟩

theorem mexec_cons {op : MOp} {ops : List MOp} {m m3 : Mrep} {outs : List Data}
    (h : mexec (op :: ops) m = some (m3, outs)) :
    ∃ m2 ret sigs errs outs2, mtq_call m op = some (Call.returns m2 ret sigs errs) ∧
      mexec ops m2 = some (m3, outs2) ∧ outs = ret.toList ++ outs2 := by
  simp only [mexec] at h
  cases hc : mtq_call m op with
  | none => simp [hc] at h
  | some c =>
    cases c with
    | waits x => simp [hc] at h
    | returns m2 ret sigs errs =>
      simp only [hc] at h
      cases hr : mexec ops m2 with
      | none => simp [hr] at h
      | some t =>
        obtain ⟨t1, t2⟩ := t
        simp only [hr, Option.some.injEq, Prod.mk.injEq] at h
        exact ⟨m2, ret, sigs, errs, t2, rfl, by rw [← h.1]; exact hr, h.2.symm⟩

theorem mexec_bounded {ops : List MOp} {m m3 : Mrep} {xs : List Data} {outs : List Data}
    (h : Models m.q End.Head xs) (hpos : 0 < m.max) (hb : (xs.length : Int) ≤ m.max)
    (hx : mexec ops m = some (m3, outs)) :
    m3.max = m.max ∧ ∃ ys, Models m3.q End.Head ys ∧ (ys.length : Int) ≤ m.max := by
  induction ops generalizing m xs outs with
  | nil =>
    simp only [mexec, Option.some.injEq, Prod.mk.injEq] at hx
    obtain ⟨rfl, -⟩ := hx
    exact ⟨rfl, xs, h, hb⟩
  | cons op ops ih =>
    obtain ⟨m2, ret, sigs, errs, outs2, hc, hr, -⟩ := mexec_cons hx
    obtain ⟨hmax, ys, hy, hlen⟩ := mtq_call_step h hc
    have hb2 : (ys.length : Int) ≤ m2.max := by
      rw [hmax]
      rcases hlen with hl | ⟨hl, hg⟩
      · have : (ys.length : Int) ≤ xs.length := by exact_mod_cast hl
        omega
      · rw [hl]
        push_cast
        by_contra hcon
        apply hg
        constructor <;> omega
    obtain ⟨h1, zs, hz, hzl⟩ := ih hy (by rw [hmax]; exact hpos) hb2 hr
    exact ⟨h1.trans hmax, zs, hz, by rw [← hmax]; exact hzl⟩

theorem blocks_guard {α β : Type} (g : Prop) [Decidable g] (c : Signal) (o : Option β)
    (m : β → Mrep) (ret : β → α) (sigs : List Signal) (errs : β → List Err) :
    Blocks (if g then some (Call.waits c)
      else o.map (fun b => Call.returns (m b) (ret b) sigs (errs b))) ↔ g := by
  by_cases hg : g
  · simp only [hg, if_true, iff_true]
    exact ⟨c, rfl⟩
  · simp only [hg, if_false, iff_false]
    rintro ⟨x, hx⟩
    cases o <;> simp at hx

theorem Mrep.with_q (m : Mrep) : ({ m with q := m.q } : Mrep) = m := by
  cases m; rfl

theorem ith_in_range {s : State} {xs : List Data} (e : End) (i : Int)
    (h : Models s End.Head xs) (h0 : 0 ≤ i) (h1 : i < xs.length) :
    ∃ v, v ∈ xs ∧ ith s e i = some ⟨s, v, []⟩ := by
  obtain ⟨k, rfl⟩ := Int.eq_ofNat_of_zero_le h0
  have hk : k < xs.length := by exact_mod_cast h1
  cases e with
  | Head => exact ⟨xs[k], List.getElem_mem _, ith_models h k hk⟩
  | Tail =>
    have hk2 : k < xs.reverse.length := by simpa using hk
    exact ⟨xs.reverse[k], List.mem_reverse.mp (List.getElem_mem _), ith_models h.rev k hk2⟩

theorem mtq_ith_returns_same {m m2 : Mrep} {xs : List Data} {e : End} {i : Int}
    {ret : Option Data} {sigs : List Signal} {errs : List Err} (h : Models m.q End.Head xs)
    (hc : mtq_call m (MOp.ith e i) = some (Call.returns m2 ret sigs errs)) : m2 = m := by
  obtain ⟨r, hr, hlen⟩ := h.rep_eq
  obtain ⟨o, h1, h2⟩ := ith_total e i h
  simp only [mtq_call, mtq_ith_eq e i hr, hlen, h1] at hc
  split at hc
  · simp [Call.withValue] at hc
  · simp only [Option.map_some', Call.withValue, Option.some.injEq, Call.returns.injEq] at hc
    obtain ⟨rfl, -, -, -⟩ := hc
    rw [h2]

theorem mtq_put_full {m : Mrep} {xs : List Data} (e : End) (d : Data)
    (h : Models m.q End.Head xs) (hpos : m.max > 0) (hfull : (xs.length : Int) ≥ m.max) :
    mtq_put m e d = some (Call.waits Signal.consumed) := by
  obtain ⟨r, hr, hlen⟩ := h.rep_eq
  rw [mtq_put_eq e d hr, hlen, if_pos ⟨hfull, hpos⟩]

/-! ## Properties of the bounded queue -/

/-- C11. Capacity invariant: for every `max > 0`, in every state reached from
`mtq_new(max)` by an execution, that is by calls of put, get, ith and rem at
either end each completing only with its guard clear, the recorded bound is
still `max` and the length of the backing deque is between 0 and `max`. -/
theorem capacity_invariant (max : Int) (ops : List MOp) (m : Mrep) (outs : List Data)
    (hmax : 0 < max) (hx : mexec ops (mtq_new max) = some (m, outs)) :
    m.max = max ∧ ∃ n, deq_len m.q = some n ∧ 0 ≤ n ∧ n ≤ max := by
  have h0 : Models (mtq_new max).q End.Head [] := deq_new_models End.Head
  obtain ⟨h1, ys, hy, hl⟩ := mexec_bounded h0 hmax (by simpa using le_of_lt hmax) hx
  exact ⟨h1, ys.length, hy.length_eq, by omega, hl⟩

/-- Witness of C11: with bound 2, two puts, a get, an ith, a put and a rem. -/
theorem capacity_invariant_witness :
    (0 : Int) < 2 ∧
    ∃ m outs, mexec [MOp.put End.Tail 1, MOp.put End.Head 2, MOp.get End.Tail,
        MOp.ith End.Head 0, MOp.put End.Tail 3, MOp.rem End.Tail 2] (mtq_new 2) =
        some (m, outs) ∧
      outs = [1, 2, 2] ∧ m.max = 2 ∧ ∃ n, deq_len m.q = some n ∧ 0 ≤ n ∧ n ≤ 2 := by
  refine ⟨by decide, ?_⟩
  cases hx : mexec [MOp.put End.Tail 1, MOp.put End.Head 2, MOp.get End.Tail,
      MOp.ith End.Head 0, MOp.put End.Tail 3, MOp.rem End.Tail 2] (mtq_new 2) with
  | none => exact absurd hx (by decide)
  | some t =>
    obtain ⟨m, outs⟩ := t
    have ho : outs = [1, 2, 2] := by
      have : (mexec [MOp.put End.Tail 1, MOp.put End.Head 2, MOp.get End.Tail,
        MOp.ith End.Head 0, MOp.put End.Tail 3, MOp.rem End.Tail 2] (mtq_new 2)).map Prod.snd =
          some [1, 2, 2] := by decide
      rw [hx] at this
      simpa using this
    exact ⟨m, outs, rfl, ho, capacity_invariant 2 _ m outs (by decide) hx⟩

/-- C12. Blocking guards: in every queue state with length `n`, a put at either
end waits exactly when `max > 0` and `n >= max` (so never when `max = 0`), and
a get or a rem at either end waits exactly when `n = 0`; where the capacity
invariant `n <= max` holds, a put waits exactly in the Full state
(`max > 0` and `n = max`), and get and rem wait exactly in the Empty state. -/
theorem guards_block_exactly (m : Mrep) (n : Int) (e : End) (d : Data)
    (h : deq_len m.q = some n) :
    (Blocks (mtq_put m e d) ↔ (m.max > 0 ∧ n ≥ m.max)) ∧
    (m.max = 0 → ¬ Blocks (mtq_put m e d)) ∧
    (Blocks (mtq_get m e) ↔ n = 0) ∧
    (Blocks (mtq_rem m e d) ↔ n = 0) ∧
    (n ≤ m.max → (Blocks (mtq_put m e d) ↔ (m.max > 0 ∧ n = m.max))) := by
  obtain ⟨r, hr, rfl⟩ : ∃ r, m.q.rep = some r ∧ r.len = n := by
    cases hq : m.q.rep with
    | none => simp [deq_len, hq] at h
    | some r => exact ⟨r, rfl, by simpa [deq_len, hq] using h⟩
  have hput : Blocks (mtq_put m e d) ↔ (r.len ≥ m.max ∧ m.max > 0) := by
    rw [mtq_put_eq e d hr]
    exact blocks_guard _ _ _ _ _ _ _
  have hget : Blocks (mtq_get m e) ↔ r.len = 0 := by
    rw [mtq_get_eq e hr]
    exact blocks_guard _ _ _ _ _ _ _
  have hrem : Blocks (mtq_rem m e d) ↔ r.len = 0 := by
    rw [mtq_rem_eq e d hr]
    exact blocks_guard _ _ _ _ _ _ _
  refine ⟨by rw [hput]; tauto, ?_, hget, hrem, ?_⟩
  · intro h0
    rw [hput]
    omega
  · intro hle
    rw [hput]
    constructor
    · rintro ⟨h1, h2⟩
      exact ⟨h2, by omega⟩
    · rintro ⟨h1, h2⟩
      exact ⟨by omega, h1⟩

/-- Witness of C12 on the new queue with bound 1, which is Empty. -/
theorem guards_block_exactly_witness :
    deq_len (mtq_new 1).q = some 0 ∧
    ((Blocks (mtq_put (mtq_new 1) End.Tail 5) ↔ ((mtq_new 1).max > 0 ∧ (0 : Int) ≥ (mtq_new 1).max)) ∧
    ((mtq_new 1).max = 0 → ¬ Blocks (mtq_put (mtq_new 1) End.Tail 5)) ∧
    (Blocks (mtq_get (mtq_new 1) End.Tail) ↔ (0 : Int) = 0) ∧
    (Blocks (mtq_rem (mtq_new 1) End.Tail 5) ↔ (0 : Int) = 0) ∧
    ((0 : Int) ≤ (mtq_new 1).max →
      (Blocks (mtq_put (mtq_new 1) End.Tail 5) ↔ ((mtq_new 1).max > 0 ∧ (0 : Int) = (mtq_new 1).max)))) :=
  ⟨rfl, guards_block_exactly (mtq_new 1) 0 End.Tail 5 rfl⟩

/-- C13, the claim fails on a negative index: on the new queue with bound 1,
which is Empty, the guard `length - 1 < i` of `mtq_head_ith` is clear for
`i = -1`; the call does not wait, and the index error of the Deque Core
surfaces with the value 0. -/
theorem mtq_ith_negative_index_surfaces :
    deq_len (mtq_new 1).q = some 0 ∧ ¬ ((0 : Int) - 1 < -1) ∧
    mtq_head_ith (mtq_new 1) (-1) =
      some (Call.returns (mtq_new 1) 0 [Signal.consumed] [Err.invalidIndex]) ∧
    ith (mtq_new 1).q End.Head (-1) = some ⟨(mtq_new 1).q, 0, [Err.invalidIndex]⟩ := by
  decide

/-- C13, amended. For every index `i >= 0`: the bounded ith waits exactly when
`length - 1 < i`; whenever its guard is clear the Deque Core `ith(e, i)` it
makes succeeds and it returns an element of the deque with no error; and it
waits for every such `i` when the queue is Empty. For a negative `i` the
guard is always clear and the call returns 0 with the index error of the
Deque Core. -/
theorem mtq_ith_guard_excludes_index_error (m : Mrep) (xs : List Data) (e : End) (i : Int)
    (h : Models m.q End.Head xs) :
    (0 ≤ i → (Blocks (mtq_ith m e i) ↔ (xs.length : Int) - 1 < i)) ∧
    (0 ≤ i → ¬ Blocks (mtq_ith m e i) → ∃ v, v ∈ xs ∧ ith m.q e i = some ⟨m.q, v, []⟩ ∧
      mtq_ith m e i = some (Call.returns m v [Signal.consumed] [])) ∧
    (0 ≤ i → xs = [] → Blocks (mtq_ith m e i)) ∧
    (i < 0 → mtq_ith m e i = some (Call.returns m 0 [Signal.consumed] [Err.invalidIndex])) := by
  obtain ⟨r, hr, hlen⟩ := h.rep_eq
  have hb : Blocks (mtq_ith m e i) ↔ (xs.length : Int) - 1 < i := by
    rw [mtq_ith_eq e i hr, hlen]
    exact blocks_guard _ _ _ _ _ _ _
  refine ⟨fun _ => hb, ?_, ?_, ?_⟩
  · intro h0 hnb
    rw [hb] at hnb
    obtain ⟨v, hv, hi⟩ := ith_in_range e i h h0 (by omega)
    refine ⟨v, hv, hi, ?_⟩
    rw [mtq_ith_eq e i hr, hlen, if_neg hnb, hi]
    simp [Mrep.with_q]
  · rintro h0 rfl
    rw [hb]
    simp only [List.length_nil, Int.Nat.cast_ofNat_Int]
    omega
  · intro hneg
    have hi := ith_models_range (h.view e) i (Or.inl hneg)
    have hng : ¬ ((xs.length : Int) - 1 < i) := by omega
    rw [mtq_ith_eq e i hr, hlen, if_neg hng, hi]
    simp [Mrep.with_q]

/-- Witness of C13, amended, on the new queue with bound 1 at index 0. -/
theorem mtq_ith_guard_excludes_index_error_witness :
    Models (mtq_new 1).q End.Head [] ∧ Blocks (mtq_ith (mtq_new 1) End.Head 0) :=
  ⟨deq_new_models End.Head,
    (mtq_ith_guard_excludes_index_error (mtq_new 1) [] End.Head 0 (deq_new_models End.Head)).2.2.1
      (le_refl 0) rfl⟩

theorem mtq_call_put_returns {m m2 : Mrep} {xs : List Data} {e : End} {d : Data}
    {ret : Option Data} {sigs : List Signal} {errs : List Err} (h : Models m.q End.Head xs)
    (hc : mtq_call m (MOp.put e d) = some (Call.returns m2 ret sigs errs)) :
    ret = none ∧ sigs = [Signal.produced] ∧ errs = [] ∧ m2.max = m.max ∧
      ¬ ((xs.length : Int) ≥ m.max ∧ m.max > 0) ∧ put m.q e d = some ⟨m2.q, (), []⟩ ∧
      (e = End.Head → Models m2.q End.Head (d :: xs)) ∧
      (e = End.Tail → Models m2.q End.Head (xs ++ [d])) := by
  obtain ⟨r, hr, hlen⟩ := h.rep_eq
  obtain ⟨s2, h1, h2⟩ := put_head_models e d h
  simp only [mtq_call, mtq_put_eq e d hr, hlen, h1] at hc
  by_cases hg : (xs.length : Int) ≥ m.max ∧ m.max > 0
  · simp [hg, Call.void] at hc
  · simp only [hg, if_false, Option.map_some', Call.void, Option.some.injEq,
      Call.returns.injEq] at hc
    obtain ⟨rfl, rfl, rfl, rfl⟩ := hc
    refine ⟨rfl, rfl, rfl, rfl, hg, h1, ?_, ?_⟩
    · rintro rfl
      exact h2
    · rintro rfl
      exact h2

theorem mtq_call_get_returns {m m2 : Mrep} {xs : List Data} {e : End}
    {ret : Option Data} {sigs : List Signal} {errs : List Err} (h : Models m.q End.Head xs)
    (hc : mtq_call m (MOp.get e) = some (Call.returns m2 ret sigs errs)) :
    ∃ x rest, ret = some x ∧ sigs = [Signal.consumed] ∧ errs = [] ∧ m2.max = m.max ∧
      (e = End.Head → xs = x :: rest) ∧ (e = End.Tail → xs = rest ++ [x]) ∧
      get m.q e = some ⟨m2.q, x, []⟩ ∧ Models m2.q End.Head rest := by
  obtain ⟨r, hr, hlen⟩ := h.rep_eq
  by_cases hx : xs = []
  · subst hx
    simp [mtq_call, mtq_get_eq e hr, hlen, Call.withValue] at hc
  · obtain ⟨s2, x, rest, h1, ha, hb, h2⟩ := get_head_models e h hx
    have hne : ¬ ((xs.length : Int) = 0) := by
      intro h0
      exact hx (List.length_eq_zero.mp (by exact_mod_cast h0))
    simp only [mtq_call, mtq_get_eq e hr, hlen, h1, if_neg hne, Option.map_some',
      Call.withValue, Option.some.injEq, Call.returns.injEq] at hc
    obtain ⟨rfl, rfl, rfl, rfl⟩ := hc
    exact ⟨x, rest, rfl, rfl, rfl, rfl, ha, hb, h1, h2⟩

theorem mexec_conserves {ops : List MOp} {m m3 : Mrep} {xs : List Data} {outs : List Data}
    (hops : ∀ op ∈ ops, op.isPutGet = true) (h : Models m.q End.Head xs)
    (hx : mexec ops m = some (m3, outs)) :
    ∃ ys, Models m3.q End.Head ys ∧ (outs ++ ys).Perm (xs ++ ops.filterMap MOp.putData) ∧
      outs.length = ops.countP MOp.hasValue := by
  induction ops generalizing m xs outs with
  | nil =>
    simp only [mexec, Option.some.injEq, Prod.mk.injEq] at hx
    obtain ⟨rfl, rfl⟩ := hx
    exact ⟨xs, h, by simp, rfl⟩
  | cons op ops ih =>
    obtain ⟨m2, ret, sigs, errs, outs2, hc, hr, rfl⟩ := mexec_cons hx
    have hops2 : ∀ op ∈ ops, op.isPutGet = true := fun o ho => hops o (List.mem_cons_of_mem _ ho)
    have hop := hops op (List.mem_cons_self _ _)
    cases op with
    | put e d =>
      obtain ⟨rfl, -, -, -, -, -, ha, hb⟩ := mtq_call_put_returns h hc
      cases e with
      | Head =>
        obtain ⟨ys, hy, hp, hl⟩ := ih hops2 (ha rfl) hr
        refine ⟨ys, hy, ?_, ?_⟩
        · simp only [Option.toList, List.nil_append, List.filterMap_cons, MOp.putData]
          refine hp.trans ?_
          simp only [List.cons_append]
          exact List.perm_middle.symm
        · simp [List.countP_cons, MOp.hasValue, hl]
      | Tail =>
        obtain ⟨ys, hy, hp, hl⟩ := ih hops2 (hb rfl) hr
        refine ⟨ys, hy, ?_, ?_⟩
        · simp only [Option.toList, List.nil_append, List.filterMap_cons, MOp.putData]
          refine hp.trans ?_
          simp
        · simp [List.countP_cons, MOp.hasValue, hl]
    | get e =>
      obtain ⟨x, rest, rfl, -, -, -, ha, hb, -, h2⟩ := mtq_call_get_returns h hc
      obtain ⟨ys, hy, hp, hl⟩ := ih hops2 h2 hr
      refine ⟨ys, hy, ?_, ?_⟩
      · simp only [Option.toList, List.singleton_append, List.cons_append, List.filterMap_cons,
          MOp.putData]
        cases e with
        | Head =>
          rw [ha rfl]
          exact List.Perm.cons x hp
        | Tail =>
          rw [hb rfl]
          refine (List.Perm.cons x hp).trans ?_
          simp only [List.append_assoc, List.singleton_append]
          exact List.perm_middle.symm
      · simp [List.countP_cons, MOp.hasValue, hl]
    | ith e i => simp [MOp.isPutGet] at hop
    | rem e d => simp [MOp.isPutGet] at hop

theorem filterMap_putData_puts (items : List Data) (n : Nat) (e1 e2 : End) :
    (items.map (MOp.put e1) ++ List.replicate n (MOp.get e2)).filterMap MOp.putData = items := by
  induction items with
  | nil =>
    induction n with
    | zero => rfl
    | succ n ih => simp [List.replicate_succ, MOp.putData]
  | cons d ds ih => simp [MOp.putData, ih]

theorem countP_hasValue_puts (items : List Data) (n : Nat) (e1 e2 : End) :
    (items.map (MOp.put e1) ++ List.replicate n (MOp.get e2)).countP MOp.hasValue = n := by
  induction items with
  | nil =>
    induction n with
    | zero => rfl
    | succ n ih =>
      simp only [List.map_nil, List.nil_append] at ih ⊢
      simp [List.replicate_succ, List.countP_cons, MOp.hasValue, ih]
  | cons d ds ih => simpa [List.countP_cons, MOp.hasValue] using ih

/-- C18. The hand-off on a queue with bound 1, as a trace: `put(Tail, x)`
completes on the new queue; in the state it leaves a further put waits (on
the consumed condition), and every execution from there that removes
nothing (puts and iths only) stays in that state; `get(Head)` is enabled
there and returns `x`; in the state after the get, `put(Tail, y)` is enabled,
and after it the queue has length 1 and holds `y` alone. -/
theorem capacity_one_handoff (x y : Data) :
    ∃ s1 s2 s3 : Mrep,
      mtq_tail_put (mtq_new 1) x = some (Call.returns s1 () [Signal.produced] []) ∧
      mtq_tail_put s1 y = some (Call.waits Signal.consumed) ∧
      (∀ ops m outs, (∀ op ∈ ops, op.removesNothing = true) →
        mexec ops s1 = some (m, outs) → m = s1) ∧
      mtq_head_get s1 = some (Call.returns s2 x [Signal.consumed] []) ∧
      mtq_tail_put s2 y = some (Call.returns s3 () [Signal.produced] []) ∧
      deq_len s3.q = some 1 ∧ contents s3.q = some [y] := by
  have h0 : Models (mtq_new 1).q End.Head [] := deq_new_models End.Head
  obtain ⟨q1, hp1, hm1⟩ := put_head_models End.Tail x h0
  have hm1b : Models q1 End.Head [x] := hm1
  obtain ⟨q2, hg, hm2⟩ := get_models hm1b
  obtain ⟨q3, hp3, hm3⟩ := put_head_models End.Tail y hm2
  have hm3b : Models q3 End.Head [y] := hm3
  obtain ⟨r0, hr0, hl0⟩ := h0.rep_eq
  obtain ⟨r1, hr1, hl1⟩ := hm1b.rep_eq
  obtain ⟨r2, hr2, hl2⟩ := hm2.rep_eq
  have hq0 : (mtq_new 1).q = deq_new := rfl
  refine ⟨⟨1, q1⟩, ⟨1, q2⟩, ⟨1, q3⟩, ?_, ?_, ?_, ?_, ?_, hm3b.length_eq, hm3b.contents⟩
  · show mtq_put (mtq_new 1) End.Tail x = _
    rw [mtq_put_eq End.Tail x hr0, hl0, hp1]
    rfl
  · exact mtq_put_full (m := ⟨1, q1⟩) End.Tail y hm1b Int.one_pos (by simp)
  · intro ops
    induction ops with
    | nil =>
      intro m outs _ hx
      simp only [mexec, Option.some.injEq, Prod.mk.injEq] at hx
      exact hx.1.symm
    | cons op ops ih =>
      intro m outs hall hx
      obtain ⟨m2, ret, sigs, errs, outs2, hc, hr, -⟩ := mexec_cons hx
      have hop := hall op (List.mem_cons_self _ _)
      have hrest : ∀ o ∈ ops, o.removesNothing = true :=
        fun o ho => hall o (List.mem_cons_of_mem _ ho)
      cases op with
      | put e d =>
        have hw := mtq_put_full (m := ⟨1, q1⟩) e d hm1b Int.one_pos (by simp)
        simp [mtq_call, hw, Call.void] at hc
      | ith e i =>
        have hq : Models (Mrep.mk 1 q1).q End.Head [x] := hm1b
        have := mtq_ith_returns_same hq hc
        subst this
        exact ih m outs2 hrest hr
      | get e => simp [MOp.removesNothing] at hop
      | rem e d => simp [MOp.removesNothing] at hop
  · show mtq_get ⟨1, q1⟩ End.Head = _
    rw [mtq_get_eq End.Head hr1, hl1, hg]
    rfl
  · show mtq_put ⟨1, q2⟩ End.Tail y = _
    rw [mtq_put_eq End.Tail y hr2, hl2, hp3]
    rfl

/-- C19. Producer and consumer conservation, for any number of items (main.c
runs 15 producers and 15 consumers) and any bound: in every execution made
of one `put(Tail)` per item and as many `get(Head)` calls, in whatever order
the calls pass the lock with their guard clear, the values returned by the
gets are the produced items, each exactly once (as multisets), and the queue
is empty afterwards. -/
theorem producer_consumer_conservation (max : Int) (items : List Data) (ops : List MOp)
    (m : Mrep) (outs : List Data)
    (hperm : ops.Perm (items.map (MOp.put End.Tail) ++
      List.replicate items.length (MOp.get End.Head)))
    (hx : mexec ops (mtq_new max) = some (m, outs)) :
    outs.Perm items ∧ deq_len m.q = some 0 ∧ contents m.q = some [] := by
  have h0 : Models (mtq_new max).q End.Head [] := deq_new_models End.Head
  have hops : ∀ op ∈ ops, op.isPutGet = true := by
    intro op hop
    have := hperm.mem_iff.mp hop
    simp only [List.mem_append, List.mem_map, List.mem_replicate] at this
    rcases this with ⟨d, -, rfl⟩ | ⟨-, rfl⟩ <;> rfl
  obtain ⟨ys, hy, hp, hl⟩ := mexec_conserves hops h0 hx
  have hfp : (ops.filterMap MOp.putData).Perm items := by
    have := hperm.filterMap MOp.putData
    rw [filterMap_putData_puts] at this
    exact this
  have hcnt : ops.countP MOp.hasValue = items.length := by
    rw [hperm.countP_eq, countP_hasValue_puts]
  have hp2 : (outs ++ ys).Perm items := by
    refine hp.trans ?_
    simpa using hfp
  have hys : ys = [] := by
    have := hp2.length_eq
    simp only [List.length_append] at this
    exact List.length_eq_zero.mp (by omega)
  subst hys
  refine ⟨by simpa using hp2, by simpa using hy.length_eq, hy.contents⟩

/-- Witness of C19: 15 distinct items on a queue with bound 4, as in main.c,
in the execution where every put is followed by a get. -/
theorem producer_consumer_conservation_witness :
    (alternate [1, 2, 3, 4, 5, 6, 7, 8, 9, 10, 11, 12, 13, 14, 15]).Perm
      (([1, 2, 3, 4, 5, 6, 7, 8, 9, 10, 11, 12, 13, 14, 15] : List Data).map (MOp.put End.Tail) ++
        List.replicate ([1, 2, 3, 4, 5, 6, 7, 8, 9, 10, 11, 12, 13, 14, 15] : List Data).length
          (MOp.get End.Head)) ∧
    mexec (alternate [1, 2, 3, 4, 5, 6, 7, 8, 9, 10, 11, 12, 13, 14, 15]) (mtq_new 4) =
      some (⟨4, ⟨List.replicate 15 none, some ⟨none, none, 0⟩⟩⟩,
        [1, 2, 3, 4, 5, 6, 7, 8, 9, 10, 11, 12, 13, 14, 15]) ∧
    ([1, 2, 3, 4, 5, 6, 7, 8, 9, 10, 11, 12, 13, 14, 15] : List Data).Perm
      [1, 2, 3, 4, 5, 6, 7, 8, 9, 10, 11, 12, 13, 14, 15] ∧
    deq_len (⟨List.replicate 15 none, some ⟨none, none, 0⟩⟩ : State) = some 0 ∧
    contents (⟨List.replicate 15 none, some ⟨none, none, 0⟩⟩ : State) = some [] :=
  ⟨by decide, by decide,
    producer_consumer_conservation 4 [1, 2, 3, 4, 5, 6, 7, 8, 9, 10, 11, 12, 13, 14, 15]
      (alternate [1, 2, 3, 4, 5, 6, 7, 8, 9, 10, 11, 12, 13, 14, 15])
      ⟨4, ⟨List.replicate 15 none, some ⟨none, none, 0⟩⟩⟩
      [1, 2, 3, 4, 5, 6, 7, 8, 9, 10, 11, 12, 13, 14, 15] (by decide) (by decide)⟩

/-! ## Well-formedness in the words of the spec is the list abstraction -/

theorem walkAddrs_linked {nodes : List (Option Node)} {d : End} {cs : Cells} {p : Ptr}
    (h : Linked nodes d p cs none) (fuel : Nat) (hf : cs.length ≤ fuel) :
    walkAddrs nodes d fuel (firstOr cs none) = some (cs.map Prod.fst) := by
  induction cs generalizing p fuel with
  | nil => cases fuel <;> rfl
  | cons c cs ih =>
    obtain ⟨⟨nd, h1, h2, h3, h4⟩, h5⟩ := h
    cases fuel with
    | zero => simp at hf
    | succ fuel =>
      show walkAddrs nodes d (fuel + 1) (some c.1) = _
      simp only [walkAddrs, h1, List.map_cons]
      rw [h3, ih h5 fuel (by simpa using hf)]
      rfl

theorem firstOr_eq_head (cs : Cells) : firstOr cs none = (cs.map Prod.fst).head? := by
  cases cs <;> rfl

theorem walkAddrs_head {nodes : List (Option Node)} {d : End} {fuel : Nat} {p : Ptr}
    {l : List Nat} (h : walkAddrs nodes d fuel p = some l) : l.head? = p := by
  cases p with
  | none =>
    cases fuel <;> simp only [walkAddrs, Option.some.injEq] at h <;> subst h <;> rfl
  | some a =>
    cases fuel with
    | zero => simp [walkAddrs] at h
    | succ fuel =>
      simp only [walkAddrs] at h
      cases hl : load nodes (some a) with
      | none => simp [hl] at h
      | some n =>
        simp only [hl, Option.map_eq_some'] at h
        obtain ⟨l2, -, rfl⟩ := h
        rfl

theorem Linked.adjacent {nodes : List (Option Node)} {d : End} {cs : Cells} {p n : Ptr}
    (h : Linked nodes d p cs n) {a b : Nat} {na nb : Node} (ha : a ∈ cs.map Prod.fst)
    (hla : load nodes (some a) = some na) (hlb : load nodes (some b) = some nb)
    (hab : na.np d = some b) (hn : n = none) : nb.np d.opp = some a := by
  obtain ⟨c, hc, rfl⟩ := List.mem_map.mp ha
  obtain ⟨l1, l2, rfl⟩ := List.append_of_mem hc
  obtain ⟨-, ⟨nd, h1, -, h3, -⟩, h5⟩ := (Linked.append l1 (c :: l2) p n).mp h
  rw [hla] at h1
  cases h1
  rw [hab] at h3
  cases l2 with
  | nil =>
    subst hn
    simp [firstOr] at h3
  | cons c2 l2 =>
    simp only [firstOr, Option.some.injEq] at h3
    obtain ⟨⟨nd2, g1, g2, -⟩, -⟩ := h5
    rw [← h3, hlb] at g1
    cases g1
    exact g2

theorem Linked.back_mem {nodes : List (Option Node)} {d : End} {cs : Cells} {q n : Ptr}
    (h : Linked nodes d q cs n) {c : Nat × Data} (hc : c ∈ cs) :
    ∃ nd, load nodes (some c.1) = some nd ∧
      (nd.np d.opp = q ∨ ∃ x ∈ cs.map Prod.fst, nd.np d.opp = some x) := by
  induction cs generalizing q with
  | nil => simp at hc
  | cons c0 cs ih =>
    obtain ⟨⟨nd, h1, h2, -⟩, h5⟩ := h
    rcases List.mem_cons.mp hc with rfl | hc
    · exact ⟨nd, h1, Or.inl h2⟩
    · obtain ⟨nd2, g1, g2⟩ := ih h5 hc
      refine ⟨nd2, g1, Or.inr ?_⟩
      rcases g2 with g2 | ⟨x, hx, g2⟩
      · exact ⟨c0.1, by simp, g2⟩
      · exact ⟨x, by simp only [List.map_cons, List.mem_cons]; exact Or.inr hx, g2⟩

theorem Linked.nodup {nodes : List (Option Node)} {d : End} {cs : Cells} {p n : Ptr}
    (h : Linked nodes d p cs n) (hp : ∀ a, p = some a → a ∉ cs.map Prod.fst) :
    (cs.map Prod.fst).Nodup := by
  induction cs generalizing p with
  | nil => simp
  | cons c cs ih =>
    obtain ⟨⟨nd, h1, h2, -⟩, h5⟩ := id h
    have hnot : c.1 ∉ cs.map Prod.fst := by
      intro hm
      obtain ⟨c2, hc2, he⟩ := List.mem_map.mp hm
      obtain ⟨nd2, g1, g2⟩ := h5.back_mem hc2
      rw [he, h1] at g1
      cases g1
      rw [h2] at g2
      rcases g2 with g2 | ⟨x, hx, g2⟩
      · exact hp c.1 g2 (by simp)
      · exact hp x g2 (by simp only [List.map_cons, List.mem_cons]; exact Or.inr hx)
    simp only [List.map_cons, List.nodup_cons]
    exact ⟨hnot, ih h5 (fun a ha => by cases ha; exact hnot)⟩

theorem walkAddrs_build {nodes : List (Option Node)} (fuel : Nat) (p prev : Ptr) (l : List Nat)
    (h : walkAddrs nodes End.Tail fuel p = some l)
    (h1 : ∀ a n, p = some a → load nodes (some a) = some n → n.np End.Head = prev)
    (h2 : ∀ a b na nb, a ∈ l → b ∈ l → load nodes (some a) = some na →
      load nodes (some b) = some nb → na.np End.Tail = some b → nb.np End.Head = some a) :
    ∃ cs : Cells, cs.map Prod.fst = l ∧ firstOr cs none = p ∧ Linked nodes End.Tail prev cs none := by
  induction fuel generalizing p prev l with
  | zero =>
    cases p with
    | none =>
      simp only [walkAddrs, Option.some.injEq] at h
      subst h
      exact ⟨[], rfl, rfl, trivial⟩
    | some a => simp [walkAddrs] at h
  | succ fuel ih =>
    cases p with
    | none =>
      simp only [walkAddrs, Option.some.injEq] at h
      subst h
      exact ⟨[], rfl, rfl, trivial⟩
    | some a =>
      simp only [walkAddrs] at h
      cases hl : load nodes (some a) with
      | none => simp [hl] at h
      | some n =>
        simp only [hl, Option.map_eq_some'] at h
        obtain ⟨l2, hw, rfl⟩ := h
        have hhead := walkAddrs_head hw
        obtain ⟨cs, hc1, hc2, hc3⟩ := ih (n.np End.Tail) (some a) l2 hw
          (by
            intro b nb hb hlb
            have hbm : b ∈ l2 := by
              rw [hb] at hhead
              exact List.mem_of_mem_head? hhead
            exact h2 a b n nb (by simp) (List.mem_cons_of_mem _ hbm) hl hlb hb)
          (fun x y nx ny hx hy => h2 x y nx ny (List.mem_cons_of_mem _ hx)
            (List.mem_cons_of_mem _ hy))
        refine ⟨(a, n.data) :: cs, by simp [hc1], rfl, ⟨n, hl, h1 a n rfl hl, ?_, rfl⟩, hc3⟩
        rw [hc2]

theorem Shape.wellFormed {s : State} {cs : Cells} (h : Shape s End.Head cs) : WellFormed s := by
  have hle := h.length_le
  obtain ⟨r, hr, hh, ht, hlen, hnd, hl⟩ := id h
  have hl2 : Linked s.nodes End.Tail none cs none := hl
  have hrev : Linked s.nodes End.Head none cs.reverse none :=
    (Linked.reverse_iff cs none none).mp hl2
  have hh2 : r.ht End.Head = firstOr cs none := hh
  have ht2 : r.ht End.Tail = lastOr cs none := ht
  refine ⟨r, cs.map Prod.fst, hr, ?_, by simpa using hlen, ?_, ?_, ?_, ?_, ?_⟩
  · rw [hh2]
    exact walkAddrs_linked hl2 _ (by omega)
  · rw [hh2, ht2, hlen]
    cases cs with
    | nil => simp [firstOr, lastOr]
    | cons c cs =>
      simp only [firstOr, List.length_cons]
      constructor
      · rintro ⟨h1, -⟩
        cases h1
      · intro h1
        omega
  · intro a n ha hla
    rw [hh2] at ha
    cases cs with
    | nil => simp [firstOr] at ha
    | cons c cs =>
      simp only [firstOr, Option.some.injEq] at ha
      obtain ⟨⟨nd, g1, g2, -⟩, -⟩ := hl2
      rw [ha, hla] at g1
      cases g1
      exact g2
  · intro a n ha hla
    rw [ht2, ← firstOr_reverse] at ha
    cases hc : cs.reverse with
    | nil => simp [hc, firstOr] at ha
    | cons c l =>
      rw [hc] at ha hrev
      simp only [firstOr, Option.some.injEq] at ha
      obtain ⟨⟨nd, g1, g2, -⟩, -⟩ := hrev
      rw [ha, hla] at g1
      cases g1
      exact g2
  · intro a b na nb ha hb hla hlb
    constructor
    · intro hab
      exact hl2.adjacent ha hla hlb hab rfl
    · intro hba
      have hb2 : b ∈ cs.reverse.map Prod.fst := by
        rw [List.map_reverse]; exact List.mem_reverse.mpr hb
      exact hrev.adjacent hb2 hlb hla hba rfl
  · rw [ht2, ← firstOr_reverse, ← List.map_reverse]
    exact walkAddrs_linked hrev _ (by simpa using Nat.le_succ_of_le hle)

theorem WellFormed.shape {s : State} (h : WellFormed s) : ∃ cs, Shape s End.Head cs := by
  obtain ⟨r, fwd, hr, hw, hlen, -, hhead, -, hadj, hback⟩ := h
  obtain ⟨cs, hc1, hc2, hc3⟩ := walkAddrs_build _ (r.ht End.Head) none fwd hw
    (fun a n ha hla => hhead a n ha hla)
    (fun a b na nb ha hb hla hlb hab => (hadj a b na nb ha hb hla hlb).mp hab)
  refine ⟨cs, r, hr, hc2.symm, ?_, ?_, hc3.nodup (fun a ha => by cases ha), hc3⟩
  · have := walkAddrs_head hback
    show r.ht End.Tail = lastOr cs none
    rw [← this, ← firstOr_reverse, firstOr_eq_head, List.map_reverse, hc1]
  · rw [hlen, ← hc1]
    simp

theorem wellFormed_iff_models (s : State) : WellFormed s ↔ ∃ xs, Models s End.Head xs := by
  constructor
  · intro h
    obtain ⟨cs, hs⟩ := h.shape
    exact ⟨_, cs, hs, rfl⟩
  · rintro ⟨xs, cs, hs, -⟩
    exact hs.wellFormed

/-- C20. Structural well-formedness, in the words of section 3 of the spec, is
an invariant of the linked deque: it holds for `deq_new()`, and from every
well-formed memory each call of `put`, `get`, `ith` and `rem` at either end,
whether it succeeds or fails, and each `deq_map`, has a defined result (no
traversal follows an absent neighbour or runs on for ever) whose memory is
well-formed again. -/
theorem wellFormed_invariant :
    WellFormed deq_new ∧
    ∀ s, WellFormed s →
      (∀ e d, ∃ o, put s e d = some o ∧ WellFormed o.st) ∧
      (∀ e, ∃ o, get s e = some o ∧ WellFormed o.st) ∧
      (∀ e i, ∃ o, ith s e i = some o ∧ WellFormed o.st) ∧
      (∀ e d, ∃ o, rem s e d = some o ∧ WellFormed o.st) ∧
      (∃ o, deq_map s = some o ∧ WellFormed o.st) := by
  refine ⟨(deq_new_shape End.Head).wellFormed, ?_⟩
  intro s hs
  obtain ⟨xs, h⟩ := (wellFormed_iff_models s).mp hs
  refine ⟨?_, ?_, ?_, ?_, ?_⟩
  · intro e d
    obtain ⟨s2, h1, h2⟩ := put_head_models e d h
    exact ⟨_, h1, (wellFormed_iff_models _).mpr ⟨_, h2⟩⟩
  · intro e
    obtain ⟨o, ys, h1, h2, -⟩ := get_total e h
    exact ⟨o, h1, (wellFormed_iff_models _).mpr ⟨_, h2⟩⟩
  · intro e i
    obtain ⟨o, h1, h2⟩ := ith_total e i h
    exact ⟨o, h1, by rw [h2]; exact hs⟩
  · intro e d
    obtain ⟨o, ys, h1, h2, -⟩ := rem_total e d h
    exact ⟨o, h1, (wellFormed_iff_models _).mpr ⟨_, h2⟩⟩
  · exact ⟨_, deq_map_models h, hs⟩

/-- Witness of C20 on the sample deque 10, 20, 10: it is well-formed, and so is
the memory after `rem(Tail, 20)`. -/
theorem wellFormed_invariant_witness :
    WellFormed sample ∧ ∃ o, rem sample End.Tail 20 = some o ∧ WellFormed o.st :=
  ⟨(wellFormed_iff_models sample).mpr ⟨_, sample_models⟩,
    (wellFormed_invariant.2 sample ((wellFormed_iff_models sample).mpr ⟨_, sample_models⟩)).2.2.2.1
      End.Tail 20⟩

/-! ## The bounded queue against the words of the spec -/

theorem mtq_call_eq (m : Mrep) (op : MOp) :
    mtq_call m op =
      match guardOf m op with
      | none => none
      | some true => some (Call.waits (waitOf op))
      | some false => (coreOp m.q op).map
          (fun o => Call.returns ⟨m.max, o.st⟩ o.ret [signalOf op] o.errs) := by
  cases hq : m.q.rep with
  | none =>
    cases op with
    | put e d =>
      cases e <;> simp [mtq_call, mtq_put, mtq_head_put, mtq_tail_put, guardOf, deq_len, hq]
    | get e =>
      cases e <;> simp [mtq_call, mtq_get, mtq_head_get, mtq_tail_get, guardOf, deq_len, hq]
    | ith e i =>
      cases e <;> simp [mtq_call, mtq_ith, mtq_head_ith, mtq_tail_ith, guardOf, deq_len, hq]
    | rem e d =>
      cases e <;> simp [mtq_call, mtq_rem, mtq_head_rem, mtq_tail_rem, guardOf, deq_len, hq]
  | some r =>
    cases op with
    | put e d =>
      simp only [mtq_call, mtq_put_eq e d hq, guardOf, deq_len, hq, Option.map_some', coreOp,
        waitOf, signalOf]
      by_cases hg : r.len ≥ m.max ∧ m.max > 0
      · have hg2 : m.max > 0 ∧ r.len ≥ m.max := ⟨hg.2, hg.1⟩
        simp [hg, hg2, Call.void]
      · have hg2 : ¬ (m.max > 0 ∧ r.len ≥ m.max) := fun h => hg ⟨h.2, h.1⟩
        simp only [hg, hg2, if_false, decide_False]
        cases put m.q e d <;> rfl
    | get e =>
      simp only [mtq_call, mtq_get_eq e hq, guardOf, deq_len, hq, Option.map_some', coreOp,
        waitOf, signalOf]
      by_cases hg : r.len = 0
      · simp [hg, Call.withValue]
      · simp only [hg, if_false, decide_False]
        cases get m.q e <;> rfl
    | ith e i =>
      simp only [mtq_call, mtq_ith_eq e i hq, guardOf, deq_len, hq, Option.map_some', coreOp,
        waitOf, signalOf]
      by_cases hg : r.len - 1 < i
      · simp [hg, Call.withValue]
      · simp only [hg, if_false, decide_False]
        cases ith m.q e i <;> rfl
    | rem e d =>
      simp only [mtq_call, mtq_rem_eq e d hq, guardOf, deq_len, hq, Option.map_some', coreOp,
        waitOf, signalOf]
      by_cases hg : r.len = 0
      · simp [hg, Call.withValue]
      · simp only [hg, if_false, decide_False]
        cases rem m.q e d <;> rfl

theorem mtq_call_returns {m m2 : Mrep} {op : MOp} {ret : Option Data} {sigs : List Signal}
    {errs : List Err} (h : mtq_call m op = some (Call.returns m2 ret sigs errs)) :
    guardOf m op = some false ∧ coreOp m.q op = some ⟨m2.q, ret, errs⟩ ∧ m2.max = m.max ∧
      sigs = [signalOf op] := by
  rw [mtq_call_eq] at h
  cases hg : guardOf m op with
  | none => simp [hg] at h
  | some b =>
    cases b with
    | true => simp [hg] at h
    | false =>
      simp only [hg] at h
      cases hc : coreOp m.q op with
      | none => simp [hc] at h
      | some o =>
        simp only [hc, Option.map_some', Option.some.injEq, Call.returns.injEq] at h
        obtain ⟨rfl, rfl, rfl, rfl⟩ := h
        exact ⟨rfl, rfl, rfl, rfl⟩

theorem mexec_max {ops : List MOp} {m m3 : Mrep} {outs : List Data}
    (h : mexec ops m = some (m3, outs)) : m3.max = m.max := by
  induction ops generalizing m outs with
  | nil =>
    simp only [mexec, Option.some.injEq, Prod.mk.injEq] at h
    rw [← h.1]
  | cons op ops ih =>
    obtain ⟨m2, ret, sigs, errs, outs2, hc, hr, -⟩ := mexec_cons h
    rw [ih hr, (mtq_call_returns hc).2.2.1]

theorem ith_st {s : State} {e : End} {i : Int} {o : Outcome Data} (h : ith s e i = some o) :
    o.st = s := by
  simp only [ith] at h
  repeat' split at h
  all_goals first
    | (cases h; done)
    | (cases h; rfl)

theorem coreOp_total {s : State} {xs : List Data} (op : MOp) (h : Models s End.Head xs) :
    ∃ o, coreOp s op = some o := by
  cases op with
  | put e d =>
    obtain ⟨s2, h1, -⟩ := put_head_models e d h
    exact ⟨_, by simp only [coreOp, h1]; rfl⟩
  | get e =>
    obtain ⟨o, -, h1, -⟩ := get_total e h
    exact ⟨_, by simp only [coreOp, h1]; rfl⟩
  | ith e i =>
    obtain ⟨o, h1, -⟩ := ith_total e i h
    exact ⟨_, by simp only [coreOp, h1]; rfl⟩
  | rem e d =>
    obtain ⟨o, -, h1, -⟩ := rem_total e d h
    exact ⟨_, by simp only [coreOp, h1]; rfl⟩

/-- C21. The bounded queue refines the Deque Core: in every queue state, a call
whose guard holds waits, and a call (put, get, ith or rem at either end)
whose guard is clear hands back exactly the value, and leaves in the backing
deque exactly the memory, of the Deque Core operation of the same name
applied to the backing deque (and it does complete when the deque is
well-formed); the bound `max` is the one `mtq_new` recorded and no call and no
execution changes it. -/
theorem mtq_refines_deq (m : Mrep) (op : MOp) :
    (guardOf m op = some true → mtq_call m op = some (Call.waits (waitOf op))) ∧
    (guardOf m op = some false → mtq_call m op = (coreOp m.q op).map
      (fun o => Call.returns ⟨m.max, o.st⟩ o.ret [signalOf op] o.errs)) ∧
    (∀ m2 ret sigs errs, mtq_call m op = some (Call.returns m2 ret sigs errs) →
      guardOf m op = some false ∧ coreOp m.q op = some ⟨m2.q, ret, errs⟩ ∧ m2.max = m.max) ∧
    (∀ xs, Models m.q End.Head xs → guardOf m op = some false →
      ∃ o, coreOp m.q op = some o ∧
        mtq_call m op = some (Call.returns ⟨m.max, o.st⟩ o.ret [signalOf op] o.errs)) ∧
    (∀ ops m3 outs, mexec ops m = some (m3, outs) → m3.max = m.max) ∧
    (∀ max, (mtq_new max).max = max ∧ (mtq_new max).q = deq_new) := by
  have key := mtq_call_eq m op
  refine ⟨?_, ?_, ?_, ?_, ?_, fun _ => ⟨rfl, rfl⟩⟩
  · intro hg
    rw [key, hg]
  · intro hg
    rw [key, hg]
  · intro m2 ret sigs errs hc
    obtain ⟨h1, h2, h3, -⟩ := mtq_call_returns hc
    exact ⟨h1, h2, h3⟩
  · intro xs hm hg
    obtain ⟨o, ho⟩ := coreOp_total op hm
    refine ⟨o, ho, ?_⟩
    rw [key, hg, ho]
    rfl
  · intro ops m3 outs hx
    exact mexec_max hx

/-- Witness of C21: `get(Tail)` on the queue with bound 2 around the sample
deque 10, 20, 10. -/
theorem mtq_refines_deq_witness :
    guardOf ⟨2, sample⟩ (MOp.get End.Tail) = some false ∧
    mtq_call ⟨2, sample⟩ (MOp.get End.Tail) = (coreOp sample (MOp.get End.Tail)).map
      (fun o => Call.returns ⟨2, o.st⟩ o.ret [signalOf (MOp.get End.Tail)] o.errs) :=
  ⟨by decide, (mtq_refines_deq ⟨2, sample⟩ (MOp.get End.Tail)).2.1 (by decide)⟩

/-- C22. Signal discipline: every completed put, at either end, emits exactly
one signal, on `produced` (data available), and none on `consumed`; every
completed get, ith and rem, at either end, emits exactly one signal, on
`consumed` (space available), and none on `produced`. This includes the ith,
which leaves the queue as it was, and the rem of a value that does not occur,
which returns 0 and leaves the queue as it was. -/
theorem signal_discipline (m m2 : Mrep) (op : MOp) (ret : Option Data) (sigs : List Signal)
    (errs : List Err) (h : mtq_call m op = some (Call.returns m2 ret sigs errs)) :
    ((∃ e d, op = MOp.put e d) → sigs = [Signal.produced]) ∧
    ((∃ e, op = MOp.get e) → sigs = [Signal.consumed]) ∧
    ((∃ e i, op = MOp.ith e i) → sigs = [Signal.consumed] ∧ m2 = m) ∧
    ((∃ e d, op = MOp.rem e d) → sigs = [Signal.consumed]) ∧
    (∀ e d xs, op = MOp.rem e d → Models m.q End.Head xs → d ∉ xs →
      sigs = [Signal.consumed] ∧ m2 = m ∧ ret = some 0) := by
  obtain ⟨-, hcore, hmax, hs⟩ := mtq_call_returns h
  have hext : m2.q = m.q → m2 = m := by
    intro hq
    cases m
    cases m2
    simp only at hq hmax
    rw [hq, hmax]
  refine ⟨?_, ?_, ?_, ?_, ?_⟩
  · rintro ⟨e, d, rfl⟩
    exact hs
  · rintro ⟨e, rfl⟩
    exact hs
  · rintro ⟨e, i, rfl⟩
    refine ⟨hs, hext ?_⟩
    simp only [coreOp, Option.map_eq_some'] at hcore
    obtain ⟨o, ho, he⟩ := hcore
    have := ith_st ho
    rw [← this]
    exact (congrArg Outcome.st he).symm
  · rintro ⟨e, d, rfl⟩
    exact hs
  · rintro e d xs rfl hm hd
    have hmem : d ∉ (match e with | End.Head => xs | End.Tail => xs.reverse) := by
      cases e <;> simpa using hd
    have hrem := rem_models_absent (hm.view e) hmem
    simp only [coreOp, hrem, Option.map_some', Option.some.injEq, Outcome.mk.injEq] at hcore
    exact ⟨hs, hext hcore.1.symm, hcore.2.1.symm⟩

/-- Witness of C22: `rem(Head, 7)`, a value that does not occur, on the queue
with bound 2 around the sample deque 10, 20, 10. -/
theorem signal_discipline_witness :
    mtq_call ⟨2, sample⟩ (MOp.rem End.Head 7) =
      some (Call.returns ⟨2, sample⟩ (some 0) [Signal.consumed] []) ∧
    (((∃ e d, MOp.rem End.Head 7 = MOp.put e d) → [Signal.consumed] = [Signal.produced]) ∧
    ((∃ e, MOp.rem End.Head 7 = MOp.get e) → [Signal.consumed] = [Signal.consumed]) ∧
    ((∃ e i, MOp.rem End.Head 7 = MOp.ith e i) →
      [Signal.consumed] = [Signal.consumed] ∧ (⟨2, sample⟩ : Mrep) = ⟨2, sample⟩) ∧
    ((∃ e d, MOp.rem End.Head 7 = MOp.rem e d) → [Signal.consumed] = [Signal.consumed]) ∧
    (∀ e d xs, MOp.rem End.Head 7 = MOp.rem e d → Models (Mrep.mk 2 sample).q End.Head xs →
      d ∉ xs → [Signal.consumed] = [Signal.consumed] ∧ (⟨2, sample⟩ : Mrep) = ⟨2, sample⟩ ∧
        some (0 : Data) = some 0)) :=
  ⟨by decide, signal_discipline ⟨2, sample⟩ ⟨2, sample⟩ (MOp.rem End.Head 7) (some 0)
    [Signal.consumed] [] (by decide)⟩

end Deq
